import Mathlib

/-!
# Verification of the mapbots OSM routing core

A shallow embedding, in Lean 4, of the parts of the `mapbots` repository
that turn OpenStreetMap data into a directed routing graph of road
sections and plan routes over it with A*:

* `osmreader/elements.py`   — `Node`, `Way`, `Way.is_oneway`
* `osmreader/multireader.py` — `MultiReader._parse_tags`, `_parse_way`
* `osmreader/xmlreader.py`  — `XMLReader.filter_ways`
* `osmreader/graphbuilder.py` — `DirectionalGraphBuilder` (sectioning,
  intra-way edges, roundabout closure, inter-way wiring)
* `planners/astar.py`       — `Astar`, `predicted_cost`, `construct_path`
* `planners/common.py`      — `find_side_entered`, `filter_neighbours`

Python dicts are modelled as association lists that preserve insertion
order, Python sets as lists with membership insertion, CPython's `heapq`
is implemented verbatim over lists, and geodesic distances (`geopy`) are
a parameter `d : Point → Point → ℚ` of every run, since the claims under
scrutiny are order- and structure-level properties, not facts about the
WGS-84 ellipsoid.  Machine floats are modelled as exact rationals.
-/

/-! ## Ordered dictionaries (Python `dict`) -/

/-- Lookup in an insertion-ordered dictionary (Python `d[k]` / `k in d`). -/
def dictGet {α : Type} (d : List (String × α)) (k : String) : Option α :=
  match d with
  | [] => none
  | p :: t => if p.1 == k then some p.2 else dictGet t k

/-- `d[k] = v` on a Python dict: overwrite in place if the key exists,
append otherwise (Python dicts preserve insertion order and never hold
a key twice, so replacing the first occurrence is the update). -/
def dictSet {α : Type} (d : List (String × α)) (k : String) (v : α) :
    List (String × α) :=
  match d with
  | [] => [(k, v)]
  | p :: t => if p.1 == k then (k, v) :: t else p :: dictSet t k v

/-- Lookup in a dictionary keyed by values of any decidable type. -/
def alGet {κ α : Type} [DecidableEq κ] (d : List (κ × α)) (k : κ) : Option α :=
  match d with
  | [] => none
  | p :: t => if p.1 = k then some p.2 else alGet t k

/-- `d[k] = v` for a dictionary keyed by a decidable type. -/
def alSet {κ α : Type} [DecidableEq κ] (d : List (κ × α)) (k : κ) (v : α) :
    List (κ × α) :=
  match d with
  | [] => [(k, v)]
  | p :: t => if p.1 = k then (k, v) :: t else p :: alSet t k v

/-! ## OSM tag values (`osmreader/multireader.py`, `_parse_tags`)

A parsed tag value is a Python scalar: `bool`, `int`, `float` or `str`.
-/

inductive TagValue : Type where
  | bool (b : Bool)
  | int (n : Int)
  | float (q : ℚ)
  | str (s : String)
deriving DecidableEq, Repr

/-- A Python tag dictionary. -/
abbrev Tags := List (String × TagValue)

/-- Numeric view of a Python scalar: `True == 1 == 1.0` in Python, so
booleans, ints and floats compare through their numeric value. -/
def TagValue.toNumQ : TagValue → Option ℚ
  | .bool b => some (if b then 1 else 0)
  | .int n => some (n : ℚ)
  | .float q => some q
  | .str _ => none

/-- Python `==` on tag values: numeric cross-type equality
(`1 == True`, `1.0 == 1`), strings only equal to equal strings, and a
string never equals a number or a boolean. -/
def pyEq (a b : TagValue) : Bool :=
  match a.toNumQ, b.toNumQ with
  | some x, some y => x == y
  | none, none =>
      match a, b with
      | .str s, .str t => s == t
      | _, _ => false
  | _, _ => false

/-! ## `osmreader/elements.py` -/

/-- `Node(id, latitude, longitude)` with its tag dict and the
back-reference list `ways` (way ids, one entry per occurrence of the
node in the way, appended by the loader). -/
structure Node : Type where
  id : Int
  lat : ℚ
  lon : ℚ
  tags : Tags
  ways : List Int
deriving DecidableEq, Repr

/-- `Way(id)`: tag dict, ordered node-id list and the `sections` counter
mutated during graph construction (initially 0). -/
structure Way : Type where
  id : Int
  tags : Tags
  nodes : List Int
  sections : Nat
deriving DecidableEq, Repr

/-- `Way.is_oneway` (elements.py:32): the `oneway` tag is Python-`== True`,
or the `junction` tag is Python-`== 'roundabout'`. -/
def Way.is_oneway (w : Way) : Bool :=
  (match dictGet w.tags "oneway" with
   | some v => pyEq v (.bool true)
   | none => false) ||
  (match dictGet w.tags "junction" with
   | some v => pyEq v (.str "roundabout")
   | none => false)

/-! ## `MultiReader._parse_tags` (multireader.py:228) -/

/-- Python `str.isdigit()` restricted to ASCII: non-empty and all
characters are decimal digits. -/
def strIsDigit (s : String) : Bool :=
  !s.isEmpty && s.toList.all (fun c => c.isDigit)

/-- `int(value)` for a string of decimal digits. -/
def parseDigits (s : String) : Int :=
  (s.toList.foldl (fun acc c => acc * 10 + (c.toNat - '0'.toNat)) 0 : Nat)

/-- A restriction of Python `float(value)`: an optional sign followed by
decimal digits with at most one decimal point (and at least one digit).
Exponents, `inf`/`nan` and underscore separators are not modelled; every
string this development evaluates the parser on is either of the simple
decimal shape or contains a letter, where this agrees with `float()`. -/
def pyFloat? (s : String) : Option ℚ :=
  let core := fun (t : List Char) =>
    if t.all (fun c => c.isDigit || c == '.') &&
       (t.count '.') ≤ 1 && (t.count '.') < t.length && !t.isEmpty then
      let intPart := t.takeWhile (fun c => c != '.')
      let fracPart := (t.dropWhile (fun c => c != '.')).drop 1
      some ((parseDigits ⟨intPart⟩ : ℚ) +
        (parseDigits ⟨fracPart⟩ : ℚ) / ((10 : ℚ) ^ fracPart.length))
    else none
  match s.toList with
  | '-' :: t => (core t).map (fun q => -q)
  | '+' :: t => core t
  | t => core t

/-- multireader.py:247 and 250 test `value.lower in ('t', 'true', ...)`.
`value.lower` is the *unapplied* bound method (the call parentheses are
missing), and a bound method is never equal to a string, so in Python
the membership test is `False` for every value.  The boolean branches of
`_parse_tags` are therefore dead code. -/
def lowerMethodMemtest (_value : String) (_strs : List String) : Bool :=
  false

/-- `MultiReader._parse_tags` on the list of `(k, v)` attribute pairs of
the `tag` children of an element, in document order.  Mirrors
multireader.py:239-262: dead boolean branches, then `isdigit` → `int`,
then `float`, else the original string. -/
def parse_tags (kvs : List (String × String)) : Tags :=
  kvs.foldl (fun ret kv =>
    let key := kv.1
    let value := kv.2
    if lowerMethodMemtest value ["t", "true", "y", "yes"] then
      dictSet ret key (.bool true)
    else if lowerMethodMemtest value ["f", "false", "n", "no"] then
      dictSet ret key (.bool false)
    else if strIsDigit value then
      dictSet ret key (.int (parseDigits value))
    else
      match pyFloat? value with
      | some q => dictSet ret key (.float q)
      | none => dictSet ret key (.str value)) []

/-- `MultiReader._parse_way` (multireader.py:210-226): parse the tags,
raise `UnusedWayException` (here: `none`) when there is no `highway`
tag, otherwise keep the way with its node references. -/
def parse_way (id : Int) (tagkvs : List (String × String))
    (refs : List Int) : Option Way :=
  let tags := parse_tags tagkvs
  if (dictGet tags "highway").isSome then
    some { id := id, tags := tags, nodes := refs, sections := 0 }
  else none

/-- `XMLReader.filter_ways` (xmlreader.py:55-65): keep exactly the ways
whose tag dict has a `highway` key. -/
def filter_ways (ways : List (Int × Way)) : List (Int × Way) :=
  ways.filter (fun p => (dictGet p.2.tags "highway").isSome)

/-- The driveability predicate as the specification words it
(spec §4.2): a `highway` tag whose value is not `cycleway`, and none of
`access`, `motorcar`, `motor_vehicle` holding `no`, `agricultural`,
`delivery` or boolean-false.  Stated from the spec, to compare with what
the source actually implements. -/
def spec_driveable (tags : Tags) : Bool :=
  (match dictGet tags "highway" with
   | some v => !(pyEq v (.str "cycleway"))
   | none => false) &&
  (["access", "motorcar", "motor_vehicle"].all (fun k =>
    match dictGet tags k with
    | some v => !(pyEq v (.str "no") || pyEq v (.str "agricultural") ||
                  pyEq v (.str "delivery") || pyEq v (.bool false))
    | none => true))

/-! ## CPython `heapq` over lists

`planners/astar.py` keeps the fringe in a `heapq` heap of
`(f_score, section)` tuples and also iterates over / removes from the
underlying list directly, so the heap's array layout is part of the
observable behaviour.  The functions below transcribe CPython's
`heapq.heappush`, `heappop`, `heapify`, `_siftdown` and `_siftup`.
The inner loops run on fuel bounded by the array length, which the
loops (moving an index strictly towards an end of the array) never
exhaust. -/

/-- Lexicographic comparison of Python `str` by code points (the order
`heapq` uses on the second tuple component). -/
def charListLt : List Char → List Char → Bool
  | _, [] => false
  | [], _ :: _ => true
  | a :: as, b :: bs =>
      if a.val < b.val then true
      else if b.val < a.val then false
      else charListLt as bs

/-- The tie-break order on vertex identifiers: Python compares the
`section` components of fringe tuples when the costs are equal. -/
class TieLt (V : Type) where
  ltB : V → V → Bool

instance : TieLt String := ⟨fun a b => charListLt a.toList b.toList⟩

/-- Section names `(way, index)` compare through the rendered string
`f"{way}_{index}"`; the planner is never run on built graphs in this
development, so only the existence of the order matters. -/
instance : TieLt (Int × Nat) :=
  ⟨fun a b => charListLt (toString a.1 ++ "_" ++ toString a.2).toList
      (toString b.1 ++ "_" ++ toString b.2).toList⟩

/-- Python `<` on `(float, str)` fringe tuples: lexicographic — smaller
first component wins, ties (neither cost below the other) fall through
to the second component. -/
def pyLt {V : Type} [TieLt V] (x y : ℚ × V) : Bool :=
  decide (x.1 < y.1) || (!decide (y.1 < x.1) && TieLt.ltB x.2 y.2)

/-- The loop of `heapq._siftdown`: bubble the hole at `pos` up towards
`startpos`, shifting parents down, and finally store `newitem`. -/
def siftdownGo {α : Type} (lt : α → α → Bool) :
    Nat → List α → Nat → Nat → α → List α
  | 0, heap, _, pos, newitem => heap.set pos newitem
  | fuel + 1, heap, startpos, pos, newitem =>
    if startpos < pos then
      let parentpos := (pos - 1) / 2
      match heap[parentpos]? with
      | some parent =>
          if lt newitem parent then
            siftdownGo lt fuel (heap.set pos parent) startpos parentpos newitem
          else heap.set pos newitem
      | none => heap.set pos newitem
    else heap.set pos newitem

/-- `heapq._siftdown(heap, startpos, pos)`. -/
def siftdown {α : Type} (lt : α → α → Bool) (heap : List α)
    (startpos pos : Nat) : List α :=
  match heap[pos]? with
  | some newitem => siftdownGo lt heap.length heap startpos pos newitem
  | none => heap

/-- Pick the smaller child of `pos` as `heapq._siftup` does:
`childpos` unless the right sibling exists and `heap[childpos] <
heap[rightpos]` fails. -/
def pickChild {α : Type} (lt : α → α → Bool) (heap : List α)
    (childpos : Nat) : Nat :=
  match heap[childpos]?, heap[childpos + 1]? with
  | some cl, some cr => if !(lt cl cr) then childpos + 1 else childpos
  | _, _ => childpos

/-- The loop of `heapq._siftup`: move the hole at `pos` down to a leaf,
shifting the smaller child up each time; returns the final hole
position together with the shifted array. -/
def siftupGo {α : Type} (lt : α → α → Bool) :
    Nat → List α → Nat → List α × Nat
  | 0, heap, pos => (heap, pos)
  | fuel + 1, heap, pos =>
    if 2 * pos + 1 < heap.length then
      let childpos := pickChild lt heap (2 * pos + 1)
      match heap[childpos]? with
      | some child => siftupGo lt fuel (heap.set pos child) childpos
      | none => (heap, pos)
    else (heap, pos)

/-- `heapq._siftup(heap, pos)`. -/
def siftup {α : Type} (lt : α → α → Bool) (heap : List α) (pos : Nat) :
    List α :=
  match heap[pos]? with
  | some newitem =>
      let hp := siftupGo lt (heap.length + 1) heap pos
      siftdown lt (hp.1.set hp.2 newitem) pos hp.2
  | none => heap

/-- `heapq.heappush(heap, item)`. -/
def heappush {α : Type} (lt : α → α → Bool) (heap : List α) (item : α) :
    List α :=
  siftdown lt (heap ++ [item]) 0 heap.length

/-- `heapq.heappop(heap)`: `none` on the empty heap (Python raises
`IndexError`; the A* loop only pops under `while fringe:`). -/
def heappop {α : Type} (lt : α → α → Bool) (heap : List α) :
    Option (α × List α) :=
  match heap.getLast? with
  | none => none
  | some lastelt =>
      let rest := heap.dropLast
      match rest.head? with
      | none => some (lastelt, [])
      | some returnitem => some (returnitem, siftup lt (rest.set 0 lastelt) 0)

/-- `heapq.heapify(x)`. -/
def heapify {α : Type} (lt : α → α → Bool) (heap : List α) : List α :=
  ((List.range (heap.length / 2)).reverse).foldl (fun h i => siftup lt h i) heap

/-! ## The planner's graph interface (pygraph `digraph`)

A vertex carries a Python attribute dictionary (built by
`DirectionalGraphBuilder._build_section`); edges are directed pairs in
insertion order, which reproduces pygraph's `node_neighbors` adjacency
order. -/

/-- A `(lat, lon)` coordinate pair. -/
abbrev Point := ℚ × ℚ

/-- One value of a vertex attribute dictionary. -/
inductive AttrVal : Type where
  | node (n : Int)
  | point (p : Point)
  | num (q : ℚ)
  | tags (t : Tags)
  | wayid (n : Int)
  | path (p : List Point)
deriving DecidableEq, Repr

/-- A vertex attribute dictionary. -/
abbrev Attrs := List (String × AttrVal)

/-- A pygraph `digraph`: vertices with attribute dicts, directed edges. -/
structure PGraph (V : Type) : Type where
  nodesL : List (V × Attrs)
  edges : List (V × V)
deriving DecidableEq, Repr

/-- The vertex list of a graph. -/
def PGraph.vertices {V : Type} (g : PGraph V) : List V :=
  g.nodesL.map (fun p => p.1)

/-- Successors of `v` in edge-insertion order (pygraph's
`node_neighbors[v]` list, total version). -/
def succList {V : Type} [DecidableEq V] (g : PGraph V) (v : V) : List V :=
  (g.edges.filter (fun e => e.1 = v)).map (fun e => e.2)

/-- `digraph.node_attributes(v)`; `KeyError` when `v` is not a vertex. -/
def node_attributes {V : Type} [DecidableEq V] (g : PGraph V) (v : V) :
    Except String Attrs :=
  match alGet g.nodesL v with
  | some a => .ok a
  | none => .error "KeyError: node not in graph"

/-- `digraph.neighbors(v)`; `KeyError` when `v` is not a vertex. -/
def neighbors {V : Type} [DecidableEq V] (g : PGraph V) (v : V) :
    Except String (List V) :=
  if (alGet g.nodesL v).isSome then .ok (succList g v)
  else .error "KeyError: node not in graph"

/-- `attrs[k]` with a `KeyError` on a missing key. -/
def getAttr {V : Type} [DecidableEq V] (g : PGraph V) (v : V) (k : String) :
    Except String AttrVal := do
  let a ← node_attributes g v
  match dictGet a k with
  | some x => .ok x
  | none => .error "KeyError: missing attribute"

/-- An attribute that is used as a `(lat, lon)` pair. -/
def getPoint {V : Type} [DecidableEq V] (g : PGraph V) (v : V) (k : String) :
    Except String Point := do
  match ← getAttr g v k with
  | .point p => .ok p
  | _ => .error "attribute is not a coordinate pair"

/-- An attribute that is used as a number. -/
def getNum {V : Type} [DecidableEq V] (g : PGraph V) (v : V) (k : String) :
    Except String ℚ := do
  match ← getAttr g v k with
  | .num q => .ok q
  | _ => .error "attribute is not a number"

/-! ## `planners/astar.py` and `planners/common.py` -/

/-- `predicted_cost(graph, current, goal)` (astar.py:87-100): minimum of
the four geodesic distances between the stored endpoint coordinates of
`current` and of `goal`; `d` stands for `geopy.distance.distance(..).m`. -/
def predicted_cost {V : Type} [DecidableEq V] (g : PGraph V)
    (d : Point → Point → ℚ) (current goal : V) : Except String ℚ := do
  let cs ← getPoint g current "start_point"
  let ce ← getPoint g current "end_point"
  let gs ← getPoint g goal "start_point"
  let ge ← getPoint g goal "end_point"
  .ok (min (min (d cs gs) (d cs ge)) (min (d ce gs) (d ce ge)))

/-- `ENTERED_START` / `ENTERED_END` of planners/common.py. -/
inductive Side : Type where
  | enteredStart
  | enteredEnd
deriving DecidableEq, Repr

/-- A required attribute value (`attrs['k']`). -/
def reqAttr (a : Attrs) (k : String) : Except String AttrVal :=
  match dictGet a k with
  | some x => .ok x
  | none => .error "KeyError: missing attribute"

/-- `find_side_entered(graph, previous, current)` (common.py:8-23). -/
def find_side_entered {V : Type} [DecidableEq V] (g : PGraph V)
    (previous current : V) : Except String Side := do
  let ni ← node_attributes g current
  let pn ← node_attributes g previous
  let cs ← reqAttr ni "start_node"
  let ps ← reqAttr pn "start_node"
  let pe ← reqAttr pn "end_node"
  .ok (if cs = ps ∨ cs = pe then .enteredStart else .enteredEnd)

/-- The per-neighbour keep condition of `filter_neighbours`
(common.py:43-48). -/
def keepNeighbour {V : Type} [DecidableEq V] (g : PGraph V) (side : Side)
    (parent nb : V) : Except String Bool := do
  let ni ← node_attributes g parent
  let nbi ← node_attributes g nb
  match side with
  | .enteredStart => do
      let pe ← reqAttr ni "end_node"
      let ns ← reqAttr nbi "start_node"
      let ne ← reqAttr nbi "end_node"
      .ok (pe = ns ∨ pe = ne)
  | .enteredEnd => do
      let ps ← reqAttr ni "start_node"
      let ns ← reqAttr nbi "start_node"
      let ne ← reqAttr nbi "end_node"
      .ok (ps = ns ∨ ps = ne)

/-- `filter_neighbours(graph, entered_side, parent, neighbours)`
(common.py:25-49), building the kept list in input order. -/
def filter_neighbours {V : Type} [DecidableEq V] (g : PGraph V) (side : Side)
    (parent : V) : List V → Except String (List V)
  | [] => .ok []
  | nb :: t => do
      let b ← keepNeighbour g side parent nb
      let r ← filter_neighbours g side parent t
      .ok (if b then nb :: r else r)

/-- The loop of `construct_path` (astar.py:110-118), on fuel; the final
`reverse` is Python's `path.reverse()`. -/
def constructPathGo {V : Type} [DecidableEq V] (anc : List (V × V)) :
    Nat → V → List V → Option (List V)
  | 0, _, _ => none
  | fuel + 1, last, path =>
      match alGet anc last with
      | some a => constructPathGo anc fuel a (path ++ [a])
      | none => some path.reverse

/-- `construct_path(ancestors, end)` (astar.py:102-118).  The Python
loop is unbounded; here it runs on `|ancestors| + 1` fuel, which
suffices whenever the ancestor map is acyclic (proved below for every
map the planner builds), and returns `none` on a cyclic map where the
Python original would loop forever. -/
def construct_path {V : Type} [DecidableEq V] (anc : List (V × V)) (e : V) :
    Option (List V) :=
  constructPathGo anc (anc.length + 1) e [e]

/-- The planner's mutable state: the `fringe` heap array, the `closed`
set (insertion-ordered), the `ancestors` and `g` dicts. -/
structure AState (V : Type) : Type where
  fringe : List (ℚ × V)
  closed : List V
  ancestors : List (V × V)
  g : List (V × ℚ)
deriving DecidableEq, Repr

/-- `closed.add(current)` on a Python set, modelled as an
insertion-ordered list without duplicates. -/
def insertSet {V : Type} [DecidableEq V] (s : List V) (x : V) : List V :=
  if x ∈ s then s else s ++ [x]

/-- The body of the `for neighbour in neighbours` loop of `Astar`
(astar.py:52-75).  The scan `for cost, section in fringe` with its
`break` is the `find?`; when no entry matches, the `for/else` runs the
push branch — also when `neighbour` is in the fringe with
`new_g >= cost`.  (In Python the `ancestors`/`g` writes precede the
`predicted_cost` call; the order only matters when `predicted_cost`
raises, which aborts the whole search.) -/
def relax {V : Type} [DecidableEq V] [TieLt V] (graph : PGraph V)
    (d : Point → Point → ℚ) (goal current : V) (st : AState V)
    (neighbour : V) : Except String (AState V) :=
  if neighbour ∈ st.closed then .ok st
  else do
    let gc ← match alGet st.g current with
      | some q => Except.ok q
      | none => Except.error "KeyError: g"
    let len ← getNum graph current "length"
    let new_g := gc + len
    let h ← predicted_cost graph d neighbour goal
    let f := new_g + h
    match st.fringe.find? (fun e => decide (e.2 = neighbour) &&
        decide (new_g < e.1)) with
    | some entry =>
        .ok { fringe := heappush pyLt (heapify pyLt (st.fringe.erase entry))
                (f, neighbour),
              closed := st.closed,
              ancestors := alSet st.ancestors neighbour current,
              g := alSet st.g neighbour new_g }
    | none =>
        .ok { fringe := heappush pyLt st.fringe (f, neighbour),
              closed := st.closed,
              ancestors := alSet st.ancestors neighbour current,
              g := alSet st.g neighbour new_g }

/-- The outcome of one iteration of the `while fringe:` loop. -/
inductive StepOut (V : Type) : Type where
  | done (r : Option (List V))
  | next (st : AState V)
deriving DecidableEq, Repr

/-- One iteration of the main loop of `Astar` (astar.py:34-75): pop the
fringe, return the reconstructed path on the goal, otherwise close
`current`, filter its neighbours by entry side (except for `start`),
and relax each survivor.  An empty fringe falls through the loop and
returns Python's implicit `None`. -/
def astarStep {V : Type} [DecidableEq V] [TieLt V] (graph : PGraph V)
    (d : Point → Point → ℚ) (start goal : V) (st : AState V) :
    Except String (StepOut V) :=
  match heappop pyLt st.fringe with
  | none => .ok (.done none)
  | some ((_, current), fringe1) =>
      if current = goal then
        match construct_path st.ancestors current with
        | some p => .ok (.done (some p))
        | none => .error "construct_path: cyclic ancestors"
      else do
        let closed1 := insertSet st.closed current
        let nbs ← neighbors graph current
        let nbs1 ← if current = start then pure nbs
          else do
            let prev ← match alGet st.ancestors current with
              | some p => Except.ok p
              | none => Except.error "KeyError: ancestors"
            let side ← find_side_entered graph prev current
            filter_neighbours graph side current nbs
        let st1 ← nbs1.foldlM (relax graph d goal current)
          { st with fringe := fringe1, closed := closed1 }
        .ok (.next st1)

/-- The state before the main loop (astar.py:25-31): `g[start] = 0` and
`heappush(fringe, (predicted_cost(graph, start, goal), start))`. -/
def astarInit {V : Type} [DecidableEq V] [TieLt V] (graph : PGraph V)
    (d : Point → Point → ℚ) (start goal : V) : Except String (AState V) := do
  let h0 ← predicted_cost graph d start goal
  .ok { fringe := heappush pyLt [] (h0, start), closed := [],
        ancestors := [], g := [(start, 0)] }

/-- A run either still sits in the loop with a state, or has finished
with `Except`-wrapped result (`.ok none` = fell through the loop,
`.ok (some p)` = found a path, `.error` = a Python exception). -/
abbrev RunState (V : Type) := AState V ⊕ Except String (Option (List V))

/-- Advance a run by one loop iteration; a finished run stays put. -/
def astarStepRun {V : Type} [DecidableEq V] [TieLt V] (graph : PGraph V)
    (d : Point → Point → ℚ) (start goal : V) : RunState V → RunState V
  | .inl st =>
      match astarStep graph d start goal st with
      | .ok (.done r) => .inr (.ok r)
      | .ok (.next st1) => .inl st1
      | .error e => .inr (.error e)
  | .inr r => .inr r

/-- The run of `Astar(graph, start, goal)` after `n` loop iterations. -/
def runAstar {V : Type} [DecidableEq V] [TieLt V] (graph : PGraph V)
    (d : Point → Point → ℚ) (start goal : V) (n : Nat) : RunState V :=
  match astarInit graph d start goal with
  | .ok st0 => (astarStepRun graph d start goal)^[n] (.inl st0)
  | .error e => .inr (.error e)

/-- The observable result of `Astar` once the run has finished within
`n` iterations (`none` while still inside the loop). -/
def AstarOut {V : Type} [DecidableEq V] [TieLt V] (graph : PGraph V)
    (d : Point → Point → ℚ) (start goal : V) (n : Nat) :
    Option (Except String (Option (List V))) :=
  match runAstar graph d start goal n with
  | .inl _ => none
  | .inr r => some r

/-! ## `osmreader/graphbuilder.py` — `DirectionalGraphBuilder`

Section names are the Python strings `f"{way_id}_{section_index}"`;
since `way_id` is an integer and the index a natural number the encoding
is injective, and it is represented here by the pair itself. -/

/-- The vertex name `f"{way}_{k}"` of graphbuilder.py:151. -/
abbrev SName : Type := Int × Nat

/-- The builder's graph: a `PGraph` over section names. -/
abbrev BGraph : Type := PGraph SName

/-- `digraph.add_node(name, attrs)`.  The builder only ever adds fresh
names (a way id occurs once in the `ways` dict and the per-way
`sections` counter increases), so the duplicate-node `AdditionError` is
unreachable and the node is appended unconditionally. -/
def addNode (g : BGraph) (name : SName) (attrs : Attrs) : BGraph :=
  { g with nodesL := g.nodesL ++ [(name, attrs)] }

/-- `digraph.add_edge((u, v))` under a `try/except AdditionError: pass`:
pygraph raises `AdditionError` when an endpoint is not a vertex or the
edge already exists, and every `add_edge` of the builder either cannot
hit those cases or swallows the exception (graphbuilder.py:63-68,
114-127), so the edge is added exactly when it is new and valid. -/
def addEdgeIfNew (g : BGraph) (e : SName × SName) : BGraph :=
  if (alGet g.nodesL e.1).isSome && (alGet g.nodesL e.2).isSome &&
     !(g.edges.contains e) then
    { g with edges := g.edges ++ [e] }
  else g

/-- `calculate_distance(points)` (graphbuilder.py:169-190) for a given
point-to-point distance `d`: the sum of distances of consecutive pairs.
(The builder always calls it on at least two points, so the
`ValueError` guard is not modelled.) -/
def calculate_distance (d : Point → Point → ℚ) : List Point → ℚ
  | [] => 0
  | p :: t => (t.foldl (fun acc q => (acc.1 + d acc.2 q, q)) ((0 : ℚ), p)).1

/-- `list.index(x)`: position of the first occurrence (Python raises
`ValueError` when absent; here the length is returned, and every call
made by the builder is on a present element). -/
def pyIndex (l : List Int) (x : Int) : Nat := l.indexOf x

/-- `list.index(x, start)`: position of the first occurrence at or after
`start`. -/
def pyIndexFrom (l : List Int) (x : Int) (start : Nat) : Nat :=
  start + (l.drop start).indexOf x

/-- `DirectionalGraphBuilder._build_section(way, start_node, end_node)`
(graphbuilder.py:129-166): slice the way's node list from the first
occurrence of `start_node` to the first occurrence of `end_node` past
it, store the section vertex with its attribute dict, chain it to the
previous section of the way (both directions unless the way is one-way)
and increment the way's `sections` counter. -/
def build_section (nodes : Int → Node) (d : Point → Point → ℚ) (w : Way)
    (g : BGraph) (start_node end_node : Int) : BGraph × Way :=
  let s := pyIndex w.nodes start_node
  let e := pyIndexFrom w.nodes end_node (s + 1) + 1
  let path := ((w.nodes.drop s).take (e - s)).map
    (fun n => ((nodes n).lat, (nodes n).lon))
  let length := calculate_distance d path
  let name : SName := (w.id, w.sections)
  let attrs : Attrs :=
    [("start_node", .node start_node), ("end_node", .node end_node),
     ("tags", .tags w.tags), ("way", .wayid w.id), ("length", .num length),
     ("path", .path path)]
  let g1 := addNode g name attrs
  let g2 :=
    if 0 < w.sections then
      let previous : SName := (w.id, w.sections - 1)
      let ga := addEdgeIfNew g1 (previous, name)
      if !w.is_oneway then addEdgeIfNew ga (name, previous) else ga
    else g1
  (g2, { w with sections := w.sections + 1 })

/-- The `for node in self.ways[way].nodes[1:]` scan of
graphbuilder.py:45-52, carrying the `last_junction` marker. -/
def sectionLoop (nodes : Int → Node) (d : Point → Point → ℚ) :
    List Int → Int → BGraph → Way → Int × BGraph × Way
  | [], lastJ, g, w => (lastJ, g, w)
  | n :: t, lastJ, g, w =>
      if 1 < ((nodes n).ways).length then
        let gw := build_section nodes d w g lastJ n
        sectionLoop nodes d t n gw.1 gw.2
      else sectionLoop nodes d t lastJ g w

/-- Pass 1 for a single way (graphbuilder.py:40-68): scan for junctions,
emit the trailing dead-end section when `last_junction` differs from the
final node, and close `nodes[0] == nodes[-1]` ways with an edge from the
last section to the first.  The `except KeyError` that the comments
intend as a roundabout check guards no dict access, so the closing edge
is attempted for every closed way. -/
def buildWay (nodes : Int → Node) (d : Point → Point → ℚ) (g : BGraph)
    (w : Way) : BGraph × Way :=
  let first := w.nodes.headD 0
  let lgw := sectionLoop nodes d w.nodes.tail first g w
  let lastJ := lgw.1
  let g1 := lgw.2.1
  let w1 := lgw.2.2
  let gw2 :=
    if lastJ ≠ w.nodes.getLastD 0 then
      build_section nodes d w1 g1 lastJ (w.nodes.getLastD 0)
    else (g1, w1)
  let g2 := gw2.1
  let w2 := gw2.2
  let g3 :=
    if w.nodes.headD 0 = w.nodes.getLastD 0 then
      addEdgeIfNew g2 ((w.id, w2.sections - 1), (w.id, 0))
    else g2
  (g3, w2)

/-- One step of pass 1: process a way against the accumulated graph and
record its updated `sections` counter. -/
def pass1Step (nodes : Int → Node) (d : Point → Point → ℚ)
    (acc : BGraph × List (Int × Way)) (iw : Int × Way) :
    BGraph × List (Int × Way) :=
  let gw := buildWay nodes d acc.1 iw.2
  (gw.1, acc.2 ++ [(iw.1, gw.2)])

/-- Pass 1 over the whole `ways` dict in insertion order, returning the
graph and the ways with their final `sections` counters. -/
def buildPass1 (nodes : Int → Node) (d : Point → Point → ℚ)
    (ways : List (Int × Way)) : BGraph × List (Int × Way) :=
  ways.foldl (pass1Step nodes d) ({ nodesL := [], edges := [] }, [])

/-- `self.ways[other_way]` in pass 2; an id absent from the dict yields
a way with `sections = 0`, over which the section loop below is empty
(the loader only ever back-references ways it kept, so the miss case is
unreachable on well-formed input). -/
def lookupWay (ways : List (Int × Way)) (i : Int) : Way :=
  (alGet ways i).getD { id := i, tags := [], nodes := [], sections := 0 }

/-- The `for other_section in range(...)` body of `_connect_sections`
(graphbuilder.py:108-127): connect `name` to the other section's start
unconditionally, and to its end only when the other way is
bidirectional. -/
def connectToSections (ways : List (Int × Way)) (g : BGraph) (name : SName)
    (node : Int) (other_way : Int) : BGraph :=
  (List.range (lookupWay ways other_way).sections).foldl (fun g other_section =>
    let other_name : SName := (other_way, other_section)
    let other_attrs := (alGet g.nodesL other_name).getD []
    let g1 :=
      if dictGet other_attrs "start_node" = some (.node node) then
        addEdgeIfNew g (name, other_name)
      else g
    if !(lookupWay ways other_way).is_oneway &&
       dictGet other_attrs "end_node" = some (.node node) then
      addEdgeIfNew g1 (name, other_name)
    else g1) g

/-- `DirectionalGraphBuilder._connect_sections(current_way, name, node)`
(graphbuilder.py:88-127). -/
def connect_sections (nodes : Int → Node) (ways : List (Int × Way))
    (g : BGraph) (current_way : Int) (name : SName) (node : Int) : BGraph :=
  ((nodes node).ways).foldl (fun g other_way =>
    if current_way = other_way then g
    else connectToSections ways g name node other_way) g

/-- Pass 2 for one section (graphbuilder.py:73-85): wire its start node
when the way is bidirectional, and its end node always.  The node ids
are read back from the stored attribute dict; a malformed attribute
value (impossible for graphs built by pass 1) wires nothing. -/
def wireSection (nodes : Int → Node) (ways : List (Int × Way)) (g : BGraph)
    (current_way : Int) (sec : Nat) : BGraph :=
  let name : SName := (current_way, sec)
  let attrs := (alGet g.nodesL name).getD []
  let g1 :=
    if !(lookupWay ways current_way).is_oneway then
      match dictGet attrs "start_node" with
      | some (.node v) => connect_sections nodes ways g current_way name v
      | _ => g
    else g
  match dictGet attrs "end_node" with
  | some (.node v) => connect_sections nodes ways g1 current_way name v
  | _ => g1

/-- Pass 2 over all ways and sections (graphbuilder.py:70-86). -/
def buildPass2 (nodes : Int → Node) (ways : List (Int × Way))
    (g : BGraph) : BGraph :=
  ways.foldl (fun g iw =>
    (List.range iw.2.sections).foldl (fun g sec =>
      wireSection nodes ways g iw.1 sec) g) g

/-- `DirectionalGraphBuilder.build()` (graphbuilder.py:17-86). -/
def build (nodes : Int → Node) (d : Point → Point → ℚ)
    (ways : List (Int × Way)) : BGraph :=
  let gw := buildPass1 nodes d ways
  buildPass2 nodes gw.2 gw.1

/-- The ways dict after pass 1 (the `sections` counters the planner and
pass 2 observe). -/
def waysAfterPass1 (nodes : Int → Node) (d : Point → Point → ℚ)
    (ways : List (Int × Way)) : List (Int × Way) :=
  (buildPass1 nodes d ways).2

/-! ## Derived notions the verification is stated with -/

/-- Geodesic distance specialised to inputs where all coordinates
coincide: `geopy.distance.distance(p, p).m = 0`, so on graphs whose
section endpoints all carry one and the same coordinate the heuristic
of the planner is identically `0`. -/
def dist0 : Point → Point → ℚ := fun _ _ => 0

/-- A vertex attribute dict carries everything one planner expansion
reads: `start_node` and `end_node` (compared for equality), a numeric
`length`, and coordinate `start_point` / `end_point` (spec §3,
`Section`). -/
def WFVertAttrs (a : Attrs) : Bool :=
  (dictGet a "start_node").isSome && (dictGet a "end_node").isSome &&
  (match dictGet a "length" with | some (.num _) => true | _ => false) &&
  (match dictGet a "start_point" with | some (.point _) => true | _ => false) &&
  (match dictGet a "end_point" with | some (.point _) => true | _ => false)

/-- A graph the planner can run on without raising: every vertex
carries the Section attributes and every edge joins vertices. -/
def WFGraph {V : Type} [DecidableEq V] (g : PGraph V) : Bool :=
  g.nodesL.all (fun p => WFVertAttrs p.2) &&
  g.edges.all (fun e => (alGet g.nodesL e.1).isSome && (alGet g.nodesL e.2).isSome)

/-- The planner's expansion relation, statically: `PReach g start u m`
holds when the planner, having reached section `u` (with recorded
predecessor chain), may push `m` — `m` is a graph successor of `u` that
survives the side-entry filter for the side on which `u` was entered
(every neighbour survives when `u = start`). -/
inductive PReach {V : Type} [DecidableEq V] (g : PGraph V) (start : V) :
    V → V → Prop where
  | base (m : V) : m ∈ succList g start → PReach g start start m
  | step (w u m : V) (side : Side) : PReach g start w u → m ∈ succList g u →
      find_side_entered g w u = .ok side →
      keepNeighbour g side u m = .ok true → PReach g start u m

/-- A section the planner can ever pop from its fringe: the start
itself, or a section pushed from some reached predecessor. -/
def PlannerReachable {V : Type} [DecidableEq V] (g : PGraph V)
    (start m : V) : Prop :=
  m = start ∨ ∃ u, PReach g start u m

/-- The position of `v` in the closing order: its index in the `closed`
list, or `closed.length` when `v` has not been closed. -/
def rankIn {V : Type} [DecidableEq V] : List V → V → Nat
  | [], _ => 0
  | c :: t, v => if c = v then 0 else rankIn t v + 1

/-- During a run, every recorded ancestor lies in the closed set and was
closed strictly before its child was (or the child is not closed at
all).  This is the acyclicity invariant of the `ancestors` map. -/
def AncInv {V : Type} [DecidableEq V] (anc : List (V × V))
    (closed : List V) : Prop :=
  ∀ m u, alGet anc m = some u →
    u ∈ closed ∧ rankIn closed u < rankIn closed m

/-! ### The sectioning scan, as a pure function (for stating claims
about pass 1 of the builder) -/

/-- A node is a junction for the builder when its back-reference list
has more than one entry (graphbuilder.py:46). -/
def isJunction (nodes : Int → Node) (n : Int) : Bool :=
  1 < ((nodes n).ways).length

/-- The `(last_junction, node)` pairs the scan of
graphbuilder.py:45-52 emits, together with the final `last_junction`. -/
def sectionScanAux (isJ : Int → Bool) :
    List Int → Int → List (Int × Int) → List (Int × Int) × Int
  | [], lastJ, acc => (acc, lastJ)
  | n :: t, lastJ, acc =>
      if isJ n then sectionScanAux isJ t n (acc ++ [(lastJ, n)])
      else sectionScanAux isJ t lastJ acc

/-- The ordered `(start_node, end_node)` pairs of the sections pass 1
emits for a node list: the junction scan plus the trailing dead-end
section of graphbuilder.py:54-56. -/
def sectionPairs (isJ : Int → Bool) (ns : List Int) : List (Int × Int) :=
  let sc := sectionScanAux isJ ns.tail (ns.headD 0) []
  if sc.2 ≠ ns.getLastD 0 then sc.1 ++ [(sc.2, ns.getLastD 0)] else sc.1

/-- A way is closed when its first and last node coincide
(graphbuilder.py:60). -/
def closedWay (w : Way) : Bool := w.nodes.headD 0 = w.nodes.getLastD 0

/-! ### Concrete inputs used to evaluate the code at failing and
witness points -/

/-- A node with the given id, back-references and zero coordinates
(all example coordinates coincide, making `dist0` exact). -/
def mkNode (i : Int) (ws : List Int) : Node :=
  { id := i, lat := 0, lon := 0, tags := [], ways := ws }

/-- Nodes 1, 2 carrying way 10: a plain two-node residential way. -/
def exNodesStraight : Int → Node := fun i =>
  if i = 1 then mkNode 1 [10] else if i = 2 then mkNode 2 [10] else mkNode i []

/-- Way 10: `highway=residential`, nodes `[1, 2]`. -/
def exWayStraight : Way :=
  { id := 10, tags := [("highway", .str "residential")], nodes := [1, 2],
    sections := 0 }

/-- Nodes of the closed non-roundabout way 20 (`[1, 2, 3, 1]`); node 1
is back-referenced twice. -/
def exNodesClosed : Int → Node := fun i =>
  if i = 1 then mkNode 1 [20, 20] else if i = 2 then mkNode 2 [20]
  else if i = 3 then mkNode 3 [20] else mkNode i []

/-- Way 20: closed (`[1, 2, 3, 1]`), `oneway=true`, *no* `junction`
tag. -/
def exWayClosed : Way :=
  { id := 20,
    tags := [("highway", .str "residential"), ("oneway", .bool true)],
    nodes := [1, 2, 3, 1], sections := 0 }

/-- Nodes of the roundabout example: way 30 is the closed roundabout
`[1, 2, 3, 1]`, way 31 the spur `[2, 4]`. -/
def exNodesRound : Int → Node := fun i =>
  if i = 1 then mkNode 1 [30, 30] else if i = 2 then mkNode 2 [30, 31]
  else if i = 3 then mkNode 3 [30] else if i = 4 then mkNode 4 [31]
  else mkNode i []

/-- Way 30: closed, `junction=roundabout` (hence one-way). -/
def exWayRound : Way :=
  { id := 30,
    tags := [("highway", .str "residential"),
             ("junction", .str "roundabout")],
    nodes := [1, 2, 3, 1], sections := 0 }

/-- Way 31: the bidirectional spur `[2, 4]` meeting the roundabout at
node 2. -/
def exWaySpur : Way :=
  { id := 31, tags := [("highway", .str "residential")], nodes := [2, 4],
    sections := 0 }

/-- Attributes of a planner vertex: `start_node`/`end_node` ids, a
length, and coincident endpoint coordinates (heuristic 0 under
`dist0`). -/
def mkAttrs (s e : Int) (len : ℚ) : Attrs :=
  [("start_node", .node s), ("end_node", .node e), ("length", .num len),
   ("start_point", .point (0, 0)), ("end_point", .point (0, 0))]

/-- The planner graph of the fringe-update scenario: sections A, B, C
chained end to end (A→B, A→C, B→C) and an isolated goal G; every
endpoint coordinate coincides, so `h ≡ 0`. -/
def exPlanGraph : PGraph String :=
  { nodesL := [("A", mkAttrs 0 1 1), ("B", mkAttrs 1 2 1),
               ("C", mkAttrs 2 3 5), ("G", mkAttrs 8 9 1)],
    edges := [("A", "B"), ("A", "C"), ("B", "C")] }

/-- A two-vertex graph with no edges: G is unreachable from A. -/
def exNoPathGraph : PGraph String :=
  { nodesL := [("A", mkAttrs 0 1 1), ("G", mkAttrs 8 9 1)], edges := [] }

deriving instance DecidableEq for Except

/-- Way 5 as the loader builds it from `<tag k="oneway" v="yes"/>`. -/
def exWayYes : Way :=
  { id := 5, tags := parse_tags [("oneway", "yes")], nodes := [1, 2],
    sections := 0 }

/-- A single well-formed planner vertex (for `plan(g, x, x)`). -/
def exOneVertGraph : PGraph String :=
  { nodesL := [("X", mkAttrs 0 1 1)], edges := [] }

/-- The number of graph vertices not yet closed: the first component of
the termination measure of the A* main loop. -/
def muOpen {V : Type} [DecidableEq V] (graph : PGraph V) (st : AState V) :
    Nat :=
  (graph.vertices.filter (fun v => decide (v ∉ st.closed))).length

/-- The number of fringe entries whose section is already closed: the
second component of the termination measure (every push is for a
not-yet-closed section, so these stale entries are only ever consumed). -/
def muStale {V : Type} [DecidableEq V] (st : AState V) : Nat :=
  st.fringe.countP (fun e => decide (e.2 ∈ st.closed))

/-- The invariant the A* loop maintains (for a well-formed graph with
`start` and `goal` among its vertices): every fringe entry's section is
a vertex, has a recorded `g`, is planner-reachable, and (unless it is
the start) has a recorded ancestor; every recorded ancestor is a vertex
and witnesses planner reachability of its child; the closed set holds
vertices only. -/
structure Inv9 {V : Type} [DecidableEq V] (graph : PGraph V) (start : V)
    (st : AState V) : Prop where
  fringe_vert : ∀ e ∈ st.fringe, e.2 ∈ graph.vertices
  fringe_g : ∀ e ∈ st.fringe, (alGet st.g e.2).isSome
  fringe_reach : ∀ e ∈ st.fringe, PlannerReachable graph start e.2
  fringe_anc : ∀ e ∈ st.fringe, e.2 ≠ start → (alGet st.ancestors e.2).isSome
  anc_vert : ∀ m u, alGet st.ancestors m = some u → u ∈ graph.vertices
  anc_reach : ∀ m u, alGet st.ancestors m = some u → PReach graph start u m
  closed_vert : ∀ v ∈ st.closed, v ∈ graph.vertices

/-- The planner state just after initialisation on the no-path example
(used to witness run-level theorems at iteration 0). -/
def exInitState : AState String :=
  { fringe := [(0, "A")], closed := [], ancestors := [], g := [("A", 0)] }

/-- The attribute dict `_build_section` (graphbuilder.py:150-160) stores
for the section delimited by the node pair `p`, written out as a
function of the way fields it actually reads (`nodes`, `tags`, `id`);
the `sections` counter does not enter. -/
def secAttrs (nodes : Int → Node) (d : Point → Point → ℚ)
    (wnodes : List Int) (wtags : Tags) (wid : Int) (p : Int × Int) :
    Attrs :=
  let s := pyIndex wnodes p.1
  let e := pyIndexFrom wnodes p.2 (s + 1) + 1
  let path := ((wnodes.drop s).take (e - s)).map
    (fun n => ((nodes n).lat, (nodes n).lon))
  let length := calculate_distance d path
  [("start_node", .node p.1), ("end_node", .node p.2),
   ("tags", .tags wtags), ("way", .wayid wid), ("length", .num length),
   ("path", .path path)]

/-- Folding `_build_section` over a ready-made list of
`(start_node, end_node)` pairs: the shape the interleaved scan-and-build
loop of pass 1 is proved equal to. -/
def pairsFold (nodes : Int → Node) (d : Point → Point → ℚ)
    (ps : List (Int × Int)) (gw : BGraph × Way) : BGraph × Way :=
  ps.foldl (fun gw p => build_section nodes d gw.2 gw.1 p.1 p.2) gw

/-! # Theorems -/

/-! ## C1 — the fringe-update guard of the A* inner loop

astar.py:59-75 scans the fringe for an entry `(cost, section)` with
`section == neighbour and new_g < cost` and only then updates; when the
neighbour *is* in the fringe but `new_g >= cost`, the loop finishes
without `break` and Python's `for/else` runs the "not in the fringe
yet" branch regardless, overwriting `g[neighbour]` with the *worse*
cost, rebinding `ancestors[neighbour]`, and pushing a second fringe
entry.  The run below exhibits this: after expanding A, section C sits
in the fringe with cost 1 (`g[C] = 1`, `h ≡ 0`); expanding B computes
`tentative_g = 2 ≥ 1`, so the claim (and the code's own comment)
demands no change, yet the state after the second iteration holds
`g[C] = 2`, `ancestors[C] = B` and the duplicate entry `(2, C)`. -/

unseal Rat.add in
/-- C1: on the straight-line graph A→B→C with unit lengths and zero
heuristic, iteration 1 leaves C in the fringe at cost 1 with
`g[C] = 1` and `ancestors[C] = A`; iteration 2 relaxes C from B with
`tentative_g = 2 ≥ 1` and, contrary to the claim's "otherwise do
nothing", records the worse `g[C] = 2`, rebinds `ancestors[C] = B` and
pushes a duplicate entry `(2, C)`. -/
theorem c1_fringe_fallthrough_bug :
    runAstar exPlanGraph dist0 "A" "G" 1 =
      .inl { fringe := [(1, "B"), (1, "C")], closed := ["A"],
             ancestors := [("B", "A"), ("C", "A")],
             g := [("A", 0), ("B", 1), ("C", 1)] } ∧
    runAstar exPlanGraph dist0 "A" "G" 2 =
      .inl { fringe := [(1, "C"), (2, "C")], closed := ["A", "B"],
             ancestors := [("B", "A"), ("C", "B")],
             g := [("A", 0), ("B", 1), ("C", 2)] } := by
  constructor
  · decide
  · decide

/-! ## C2 — the builder stores no `start_point` / `end_point`

`_build_section` (graphbuilder.py:152-157) stores exactly the keys
`start_node`, `end_node`, `tags`, `way`, `length`, `path`, while
`predicted_cost` (astar.py:95-100) reads `start_point` / `end_point`;
on any graph the builder produces the planner's heuristic raises
`KeyError`. -/

unseal Rat.add in
/-- C2: on the two-node residential way the built graph's only vertex
carries exactly the six `_build_section` keys — neither `start_point`
nor `end_point` — and `predicted_cost` on that vertex raises. -/
theorem c2_missing_endpoint_attrs :
    ((build exNodesStraight dist0 [(10, exWayStraight)]).nodesL.map
      (fun p => p.2.map Prod.fst)) =
      [["start_node", "end_node", "tags", "way", "length", "path"]] ∧
    dictGet ((alGet (build exNodesStraight dist0
      [(10, exWayStraight)]).nodesL (10, 0)).getD []) "start_point" = none ∧
    dictGet ((alGet (build exNodesStraight dist0
      [(10, exWayStraight)]).nodesL (10, 0)).getD []) "end_point" = none ∧
    predicted_cost (build exNodesStraight dist0 [(10, exWayStraight)]) dist0
      (10, 0) (10, 0) = .error "KeyError: missing attribute" := by
  refine ⟨by decide, by decide, by decide, by decide⟩

/-! ## C3 — the way filter keeps every way with a `highway` tag

Both `MultiReader._parse_way` (multireader.py:223) and
`XMLReader.filter_ways` (xmlreader.py:60) test only `'highway' in
tags`; the value of the tag and the `access`/`motorcar`/`motor_vehicle`
tags are never consulted. -/

/-- C3 counterexample: a `highway=cycleway` way and a
`highway=residential, access=no` way both survive parsing although the
claim's driveability predicate rejects them. -/
theorem c3_cycleway_survives_counterexample :
    (parse_way 7 [("highway", "cycleway")] [1, 2]).isSome = true ∧
    spec_driveable (parse_tags [("highway", "cycleway")]) = false ∧
    (parse_way 8 [("highway", "residential"), ("access", "no")]
      [1, 2]).isSome = true ∧
    spec_driveable (parse_tags [("highway", "residential"),
      ("access", "no")]) = false := by
  refine ⟨by decide, by decide, by decide, by decide⟩

/-- C3 amended: a raw way survives `_parse_way` precisely when its
parsed tag dict has a `highway` key — whatever the tag's value — and
`filter_ways` keeps exactly the ways whose tag dict has a `highway`
key. -/
theorem c3_highway_presence_is_the_filter (id : Int)
    (tagkvs : List (String × String)) (refs : List Int)
    (ways : List (Int × Way)) :
    (parse_way id tagkvs refs).isSome =
      (dictGet (parse_tags tagkvs) "highway").isSome ∧
    ∀ p ∈ filter_ways ways, (dictGet p.2.tags "highway").isSome := by
  constructor
  · unfold parse_way
    by_cases h : (dictGet (parse_tags tagkvs) "highway").isSome <;> simp [h]
  · intro p hp
    have := List.of_mem_filter hp
    simpa using this

/-! ## C4 — the roundabout closure edge ignores `junction=roundabout`

graphbuilder.py:59-65 adds the last-to-first edge for *every* way with
`nodes[0] == nodes[-1]`; the `except KeyError` commented "The way is
not a roundabout" guards no dictionary access and is dead, so a closed
way without the `junction` tag also receives the closing edge. -/

unseal Rat.add in
/-- C4: way 20 is closed but carries no `junction` tag, yet the built
graph contains the wrap-around edge from its last (= only) section to
its first. -/
theorem c4_wrap_edge_without_roundabout_tag :
    dictGet exWayClosed.tags "junction" = none ∧
    closedWay exWayClosed = true ∧
    (build exNodesClosed dist0 [(20, exWayClosed)]).edges =
      [((20, 0), (20, 0))] := by
  refine ⟨by decide, by decide, by decide⟩

/-! ## C6 — tag values are never coerced to booleans

multireader.py:247/250 compares the *unapplied* method `value.lower`
against the tuple of strings, which is always false, so `"yes"` and
`"true"` are stored as the strings themselves and a way tagged
`oneway=yes` does *not* satisfy `is_oneway()` (`'yes' == True` is
false in Python). -/

/-- C6: `"yes"` and `"true"` survive `_parse_tags` as strings (not as
boolean true), and the way tagged `oneway=yes` fails `is_oneway()`. -/
theorem c6_boolean_coercion_never_fires :
    parse_tags [("oneway", "yes")] = [("oneway", TagValue.str "yes")] ∧
    parse_tags [("oneway", "true")] = [("oneway", TagValue.str "true")] ∧
    Way.is_oneway exWayYes = false := by
  refine ⟨by decide, by decide, by decide⟩

/-! ## C8 — `plan(g, x, x)` returns `[x]`

The run pushes `(h(x,x), x)`, immediately pops it, sees
`current == goal` and reconstructs from the empty ancestor map. -/

/-- Extract the `start_point` coordinate required by `WFVertAttrs`. -/
theorem wf_start_point {a : Attrs} (h : WFVertAttrs a = true) :
    ∃ p, dictGet a "start_point" = some (.point p) := by
  unfold WFVertAttrs at h
  simp only [Bool.and_eq_true] at h
  rcases h with ⟨⟨_, h⟩, _⟩
  cases hd : dictGet a "start_point" with
  | none => rw [hd] at h; simp at h
  | some v => cases v <;> rw [hd] at h <;> simp_all

/-- Extract the `end_point` coordinate required by `WFVertAttrs`. -/
theorem wf_end_point {a : Attrs} (h : WFVertAttrs a = true) :
    ∃ p, dictGet a "end_point" = some (.point p) := by
  unfold WFVertAttrs at h
  simp only [Bool.and_eq_true] at h
  rcases h with ⟨_, h⟩
  cases hd : dictGet a "end_point" with
  | none => rw [hd] at h; simp at h
  | some v => cases v <;> rw [hd] at h <;> simp_all

/-- `Except.ok` feeds the continuation of a `do` bind. -/
theorem except_bind_ok {e a b : Type} (x : a) (f : a → Except e b) :
    (Except.ok x >>= f) = f x := rfl

/-- Pushing onto the empty heap. -/
theorem heappush_nil {V : Type} [TieLt V] (x : ℚ × V) :
    heappush pyLt [] x = [x] := rfl

/-- Popping the one-element heap. -/
theorem heappop_single {V : Type} [TieLt V] (e : ℚ × V) :
    heappop pyLt [e] = some (e, []) := rfl

/-- Reconstruction from the empty ancestor map. -/
theorem construct_path_nil {V : Type} [DecidableEq V] (x : V) :
    construct_path ([] : List (V × V)) x = some [x] := rfl

/-- `predicted_cost` succeeds on vertices that carry the Section
attributes. -/
theorem predicted_cost_ok {V : Type} [DecidableEq V] (g : PGraph V)
    (d : Point → Point → ℚ) (v w : V) {av aw : Attrs}
    (hv : alGet g.nodesL v = some av) (hv2 : WFVertAttrs av = true)
    (hw : alGet g.nodesL w = some aw) (hw2 : WFVertAttrs aw = true) :
    ∃ q, predicted_cost g d v w = .ok q := by
  obtain ⟨ps, hps⟩ := wf_start_point hv2
  obtain ⟨pe, hpe⟩ := wf_end_point hv2
  obtain ⟨qs, hqs⟩ := wf_start_point hw2
  obtain ⟨qe, hqe⟩ := wf_end_point hw2
  refine ⟨min (min (d ps qs) (d ps qe)) (min (d pe qs) (d pe qe)), ?_⟩
  simp only [predicted_cost, getPoint, getAttr, node_attributes, hv, hw, hps,
    hpe, hqs, hqe, except_bind_ok]

/-- C8: for every graph, distance function and vertex `x` carrying the
Section attributes of the data model, `Astar(graph, x, x)` finishes in
one loop iteration with the single-element path `[x]`. -/
theorem c8_self_plan {V : Type} [DecidableEq V] [TieLt V] (g : PGraph V)
    (d : Point → Point → ℚ) (x : V) {ax : Attrs}
    (hx : alGet g.nodesL x = some ax) (hx2 : WFVertAttrs ax = true) :
    AstarOut g d x x 1 = some (.ok (some [x])) := by
  obtain ⟨q, hq⟩ := predicted_cost_ok g d x x hx hx2 hx hx2
  have h1 : astarStep g d x x
      { fringe := [(q, x)], closed := [], ancestors := [], g := [(x, 0)] } =
      .ok (.done (some [x])) := by
    simp only [astarStep, heappop_single, construct_path_nil, if_pos]
  have h0 : astarInit g d x x = .ok
      { fringe := [(q, x)], closed := [], ancestors := [], g := [(x, 0)] } := by
    simp only [astarInit, hq, except_bind_ok, heappush_nil]
  simp only [AstarOut, runAstar, h0, Function.iterate_one, astarStepRun, h1]

/-- C8 witness: the one-vertex graph. -/
theorem c8_self_plan_witness :
    AstarOut exOneVertGraph dist0 "X" "X" 1 = some (.ok (some ["X"])) :=
  c8_self_plan exOneVertGraph dist0 "X"
    (show alGet exOneVertGraph.nodesL "X" = some (mkAttrs 0 1 1) by decide)
    (by decide)

/-! ## C10 — the ancestors map points into the closed set and is acyclic

`ancestors[neighbour] = current` is only ever written under the guard
`neighbour not in closed` (astar.py:54) and after `closed.add(current)`
(astar.py:45), so ancestors point strictly backwards in closing order;
`construct_path` therefore terminates, ending at its argument and
starting at a section with no recorded predecessor. -/

/-- Updating a key then reading it. -/
theorem alGet_alSet_self {κ α : Type} [DecidableEq κ] (d : List (κ × α))
    (k : κ) (v : α) : alGet (alSet d k v) k = some v := by
  induction d with
  | nil => simp [alSet, alGet]
  | cons p t ih =>
      by_cases h : p.1 = k
      · simp [alSet, alGet, h]
      · simp [alSet, alGet, h, ih]

/-- Updating one key leaves the others unchanged. -/
theorem alGet_alSet_ne {κ α : Type} [DecidableEq κ] (d : List (κ × α))
    (k k' : κ) (v : α) (h : k' ≠ k) :
    alGet (alSet d k v) k' = alGet d k' := by
  have h2 : ¬ (k = k') := fun e => h e.symm
  induction d with
  | nil => simp [alSet, alGet, h2]
  | cons p t ih =>
      by_cases hp : p.1 = k
      · have h3 : ¬ (p.1 = k') := by rw [hp]; exact h2
        simp [alSet, alGet, hp, h2, h3]
      · by_cases hq : p.1 = k'
        · simp [alSet, alGet, hp, hq, h, h2]
        · simp [alSet, alGet, hp, hq, h, h2, ih]

/-- A defined entry means the key occurs in the dictionary. -/
theorem alGet_isSome_mem {κ α : Type} [DecidableEq κ] {d : List (κ × α)}
    {k : κ} (h : (alGet d k).isSome) : k ∈ d.map Prod.fst := by
  induction d with
  | nil => simp [alGet] at h
  | cons p t ih =>
      by_cases hp : p.1 = k
      · simp [hp]
      · simp only [alGet, if_neg hp] at h
        simp only [List.map_cons, List.mem_cons]
        exact Or.inr (ih h)

/-- Members sit strictly before the end of the closing order. -/
theorem rankIn_lt_length {V : Type} [DecidableEq V] {l : List V} {v : V}
    (h : v ∈ l) : rankIn l v < l.length := by
  induction l with
  | nil => cases h
  | cons c t ih =>
      by_cases hc : c = v
      · simp [rankIn, hc]
      · have hvt : v ∈ t := by
          rcases List.mem_cons.mp h with h1 | h1
          · exact absurd h1.symm hc
          · exact h1
        have := ih hvt
        simp only [rankIn, if_neg hc, List.length_cons]
        omega

/-- Non-members rank at the very end of the closing order. -/
theorem rankIn_eq_length {V : Type} [DecidableEq V] {l : List V} {v : V}
    (h : v ∉ l) : rankIn l v = l.length := by
  induction l with
  | nil => rfl
  | cons c t ih =>
      have hc : c ≠ v := fun hcv => h (hcv ▸ List.mem_cons_self c t)
      have hvt : v ∉ t := fun hv => h (List.mem_cons_of_mem c hv)
      simp [rankIn, hc, ih hvt]

/-- Closing a new section does not move the already closed. -/
theorem rankIn_append_mem {V : Type} [DecidableEq V] {l : List V} {v : V}
    (l2 : List V) (h : v ∈ l) : rankIn (l ++ l2) v = rankIn l v := by
  induction l with
  | nil => cases h
  | cons c t ih =>
      by_cases hc : c = v
      · simp [rankIn, hc]
      · have hvt : v ∈ t := by
          rcases List.mem_cons.mp h with h1 | h1
          · exact absurd h1.symm hc
          · exact h1
        simp [rankIn, hc, ih hvt]

/-- Closing a new section puts it at the end of the order. -/
theorem rankIn_append_self {V : Type} [DecidableEq V] {l : List V} {v : V}
    (h : v ∉ l) : rankIn (l ++ [v]) v = l.length := by
  induction l with
  | nil => simp [rankIn]
  | cons c t ih =>
      have hc : c ≠ v := fun hcv => h (hcv ▸ List.mem_cons_self c t)
      have hvt : v ∉ t := fun hv => h (List.mem_cons_of_mem c hv)
      simp [rankIn, hc, ih hvt]

/-- Sections distinct from the newly closed one rank past it. -/
theorem rankIn_append_other {V : Type} [DecidableEq V] {l : List V}
    {v c : V} (h : v ∉ l) (hvc : c ≠ v) :
    rankIn (l ++ [c]) v = l.length + 1 := by
  induction l with
  | nil => simp [rankIn, hvc]
  | cons b t ih =>
      have hb : b ≠ v := fun hbv => h (hbv ▸ List.mem_cons_self b t)
      have hvt : v ∉ t := fun hv => h (List.mem_cons_of_mem b hv)
      simp [rankIn, hb, ih hvt]

/-- The empty ancestor map satisfies the invariant. -/
theorem ancInv_nil {V : Type} [DecidableEq V] (closed : List V) :
    AncInv ([] : List (V × V)) closed := by
  intro m u h
  simp [alGet] at h

/-- Growing the closed set preserves the invariant. -/
theorem ancInv_insertSet {V : Type} [DecidableEq V] {anc : List (V × V)}
    {closed : List V} (h : AncInv anc closed) (c : V) :
    AncInv anc (insertSet closed c) := by
  unfold insertSet
  by_cases hc : c ∈ closed
  · simpa [hc] using h
  · simp only [hc, if_false]
    intro m u hm
    obtain ⟨hu, hr⟩ := h m u hm
    refine ⟨List.mem_append_left _ hu, ?_⟩
    rw [rankIn_append_mem _ hu]
    by_cases hmc : m ∈ closed
    · rw [rankIn_append_mem _ hmc]; exact hr
    · have hlen : rankIn closed u < closed.length := rankIn_lt_length hu
      by_cases hmeq : c = m
      · subst hmeq
        rw [rankIn_append_self hmc]
        exact hlen
      · rw [rankIn_append_other hmc hmeq]
        omega

/-- Writing `ancestors[m] = c` for a closed `c` and an open `m`
preserves the invariant. -/
theorem ancInv_write {V : Type} [DecidableEq V] {anc : List (V × V)}
    {closed : List V} (h : AncInv anc closed) {m c : V}
    (hc : c ∈ closed) (hm : m ∉ closed) : AncInv (alSet anc m c) closed := by
  intro m' u hm'
  by_cases he : m' = m
  · subst he
    rw [alGet_alSet_self] at hm'
    cases hm'
    refine ⟨hc, ?_⟩
    rw [rankIn_eq_length hm]
    exact rankIn_lt_length hc
  · rw [alGet_alSet_ne _ _ _ _ he] at hm'
    exact h m' u hm'

/-- Dissect a successful `Except` bind. -/
theorem bind_eq_ok {e a b : Type} {x : Except e a} {f : a → Except e b}
    {r : b} (h : (x >>= f) = .ok r) : ∃ v, x = .ok v ∧ f v = .ok r := by
  cases x with
  | ok v => exact ⟨v, rfl, h⟩
  | error err =>
      exact absurd h (by simp [Bind.bind, Except.bind])

/-- A section is in the closed set after it is added. -/
theorem mem_insertSet_self {V : Type} [DecidableEq V] (s : List V) (x : V) :
    x ∈ insertSet s x := by
  unfold insertSet
  by_cases h : x ∈ s
  · simp [h]
  · simp [h]

/-- `relax` never touches the closed set, and preserves the ancestor
invariant whenever `current` is closed (astar.py:45 runs before the
neighbour loop). -/
theorem relax_ancInv {V : Type} [DecidableEq V] [TieLt V] {graph : PGraph V}
    {d : Point → Point → ℚ} {goal current : V} {st st' : AState V} {nb : V}
    (h : relax graph d goal current st nb = .ok st') :
    st'.closed = st.closed ∧
    (current ∈ st.closed → AncInv st.ancestors st.closed →
      AncInv st'.ancestors st'.closed) := by
  unfold relax at h
  by_cases hm : nb ∈ st.closed
  · rw [if_pos hm] at h
    cases h
    exact ⟨rfl, fun _ hi => hi⟩
  · rw [if_neg hm] at h
    split at h
    · rw [except_bind_ok] at h
      obtain ⟨len, hlen, h⟩ := bind_eq_ok h
      obtain ⟨hq, hh, h⟩ := bind_eq_ok h
      split at h <;> cases h <;>
        exact ⟨rfl, fun hcur hi => ancInv_write hi hcur hm⟩
    · simp [Bind.bind, Except.bind] at h

/-- Folding `relax` over the surviving neighbours keeps the closed set
and the ancestor invariant. -/
theorem foldlM_relax_ancInv {V : Type} [DecidableEq V] [TieLt V]
    {graph : PGraph V} {d : Point → Point → ℚ} {goal current : V} :
    ∀ (l : List V) (st0 stN : AState V),
      l.foldlM (relax graph d goal current) st0 = .ok stN →
      current ∈ st0.closed → AncInv st0.ancestors st0.closed →
      stN.closed = st0.closed ∧ AncInv stN.ancestors stN.closed := by
  intro l
  induction l with
  | nil =>
      intro st0 stN h hcur hinv
      simp only [List.foldlM_nil, pure, Except.pure] at h
      cases h
      exact ⟨rfl, hinv⟩
  | cons nb t ih =>
      intro st0 stN h hcur hinv
      rw [List.foldlM_cons] at h
      obtain ⟨st1, h1, h2⟩ := bind_eq_ok h
      obtain ⟨hcl, hpres⟩ := relax_ancInv h1
      have hres := ih st1 stN h2 (by rw [hcl]; exact hcur)
        (hpres hcur hinv)
      exact ⟨hres.1.trans hcl, hres.2⟩

/-- One loop iteration preserves the ancestor invariant. -/
theorem astarStep_ancInv {V : Type} [DecidableEq V] [TieLt V]
    {graph : PGraph V} {d : Point → Point → ℚ} {start goal : V}
    {st st1 : AState V}
    (h : astarStep graph d start goal st = .ok (.next st1))
    (hinv : AncInv st.ancestors st.closed) :
    AncInv st1.ancestors st1.closed := by
  unfold astarStep at h
  cases hpop : heappop pyLt st.fringe with
  | none => rw [hpop] at h; simp at h
  | some pr =>
      obtain ⟨⟨c, current⟩, fringe1⟩ := pr
      simp only [hpop] at h
      by_cases hg : current = goal
      · rw [if_pos hg] at h
        cases hcp : construct_path st.ancestors current <;>
          rw [hcp] at h <;> simp at h
      · rw [if_neg hg] at h
        obtain ⟨nbs, hnbs, h⟩ := bind_eq_ok h
        by_cases hs : current = start
        · rw [if_pos hs] at h
          simp only [pure, Except.pure, except_bind_ok] at h
          obtain ⟨stN, hfold, h⟩ := bind_eq_ok h
          simp only [Except.ok.injEq, StepOut.next.injEq] at h
          subst h
          have hres := foldlM_relax_ancInv nbs
            { st with fringe := fringe1,
                      closed := insertSet st.closed current } stN hfold
            (mem_insertSet_self st.closed current)
            (ancInv_insertSet hinv current)
          exact hres.2
        · rw [if_neg hs] at h
          split at h
          · rw [except_bind_ok] at h
            obtain ⟨side, hside, h⟩ := bind_eq_ok h
            obtain ⟨nbs1, hnbs1, h⟩ := bind_eq_ok h
            obtain ⟨stN, hfold, h⟩ := bind_eq_ok h
            simp only [Except.ok.injEq, StepOut.next.injEq] at h
            subst h
            have hres := foldlM_relax_ancInv nbs1
              { st with fringe := fringe1,
                        closed := insertSet st.closed current } stN hfold
              (mem_insertSet_self st.closed current)
              (ancInv_insertSet hinv current)
            exact hres.2
          · simp [Bind.bind, Except.bind] at h

/-- Every state the A* loop reaches satisfies the ancestor invariant. -/
theorem runAstar_ancInv {V : Type} [DecidableEq V] [TieLt V]
    (graph : PGraph V) (d : Point → Point → ℚ) (start goal : V) :
    ∀ n st, runAstar graph d start goal n = .inl st →
      AncInv st.ancestors st.closed := by
  intro n
  induction n with
  | zero =>
      intro st h
      unfold runAstar at h
      cases hi : astarInit graph d start goal with
      | error e => rw [hi] at h; simp at h
      | ok st0 =>
          rw [hi] at h
          simp only [Function.iterate_zero, id] at h
          have hanc : st0.ancestors = [] := by
            unfold astarInit at hi
            obtain ⟨q2, hq2, h2⟩ := bind_eq_ok hi
            cases h2
            rfl
          cases h
          rw [hanc]
          exact ancInv_nil _
  | succ n ih =>
      intro st h
      unfold runAstar at h
      cases hi : astarInit graph d start goal with
      | error e => rw [hi] at h; simp at h
      | ok st0 =>
          simp only [hi] at h
          rw [Function.iterate_succ_apply'] at h
          cases hprev : (astarStepRun graph d start goal)^[n] (.inl st0) with
          | inr r => rw [hprev] at h; simp [astarStepRun] at h
          | inl st' =>
              rw [hprev] at h
              have hinv' : AncInv st'.ancestors st'.closed := by
                apply ih
                simp only [runAstar, hi]
                exact hprev
              unfold astarStepRun at h
              cases hstep : astarStep graph d start goal st' with
              | error e => simp only [hstep] at h; cases h
              | ok out =>
                  simp only [hstep] at h
                  cases out with
                  | done r => simp at h
                  | next stn =>
                      simp only at h
                      cases h
                      exact astarStep_ancInv hstep hinv'

/-- A strict count comparison: some member satisfies the larger
predicate but not the smaller. -/
theorem countP_strict {α : Type} {p p' : α → Bool}
    (mono : ∀ x, p x = true → p' x = true) :
    ∀ (l : List α) (a : α), a ∈ l → p' a = true → p a = false →
      l.countP p < l.countP p' := by
  intro l
  induction l with
  | nil => intro a ha; cases ha
  | cons b t ih =>
      intro a ha hp' hp
      simp only [List.countP_cons]
      rcases List.mem_cons.mp ha with hb | hb
      · subst hb
        have hle : t.countP p ≤ t.countP p' :=
          List.countP_mono_left (fun x _ => mono x)
        simp [hp, hp']
        omega
      · have hlt := ih a hb hp' hp
        by_cases hpb : p b = true
        · simp [hpb, mono b hpb]
          omega
        · simp only [Bool.not_eq_true] at hpb
          simp only [hpb, if_false]
          cases hpb2 : p' b <;> simp <;> omega

/-- A count over a predicate failing somewhere is short of the
length. -/
theorem countP_lt_length {α : Type} {l : List α} {p : α → Bool} {a : α}
    (ha : a ∈ l) (hp : p a = false) : l.countP p < l.length := by
  induction l with
  | nil => cases ha
  | cons b t ih =>
      simp only [List.countP_cons, List.length_cons]
      rcases List.mem_cons.mp ha with hb | hb
      · subst hb
        have := List.countP_le_length (p := p) (l := t)
        simp [hp]
        omega
      · have := ih hb
        by_cases hpb : p b = true <;> simp [hpb] <;> omega

/-- Under the ancestor invariant, the `construct_path` loop terminates
within its fuel: the ancestor ranks decrease strictly, so the chain
visits pairwise distinct keys of the map. -/
theorem cpGo_ok {V : Type} [DecidableEq V] {anc : List (V × V)}
    {closed : List V} (hinv : AncInv anc closed) :
    ∀ (fuel : Nat) (last : V) (acc : List V),
      acc.getLast? = some last →
      ((alGet anc last).isSome →
        (anc.map Prod.fst).countP
          (fun k => decide (rankIn closed k < rankIn closed last)) + 2 ≤
          fuel) →
      (alGet anc last = none → 1 ≤ fuel) →
      ∃ ext f, constructPathGo anc fuel last acc = some ((acc ++ ext).reverse) ∧
        (acc ++ ext).getLast? = some f ∧ alGet anc f = none := by
  intro fuel
  induction fuel with
  | zero =>
      intro last acc hlast hsome hnone
      cases hs : alGet anc last with
      | some a => have := hsome (by rw [hs]; rfl); omega
      | none => have := hnone hs; omega
  | succ f ih =>
      intro last acc hlast hsome hnone
      cases hs : alGet anc last with
      | none =>
          refine ⟨[], last, ?_, ?_, hs⟩
          · simp [constructPathGo, hs]
          · simpa using hlast
      | some a =>
          obtain ⟨hac, hrank⟩ := hinv last a hs
          have hBle := hsome (by rw [hs]; rfl)
          have hmono : ∀ x : V,
              decide (rankIn closed x < rankIn closed a) = true →
              decide (rankIn closed x < rankIn closed last) = true := by
            intro x hx
            simp only [decide_eq_true_eq] at hx ⊢
            omega
          obtain ⟨ext, fl, hgo, hlast2, hfl⟩ := ih a (acc ++ [a])
            (by simp)
            (by
              intro hsome2
              have haKey : a ∈ anc.map Prod.fst := alGet_isSome_mem hsome2
              have hstrict := countP_strict hmono (anc.map Prod.fst) a haKey
                (by simp only [decide_eq_true_eq]; exact hrank)
                (by simp)
              omega)
            (by intro _; omega)
          refine ⟨a :: ext, fl, ?_, ?_, hfl⟩
          · simp only [constructPathGo, hs]
            rw [hgo]
            simp
          · simpa using hlast2

/-- C10: at every state the A* loop reaches, the `ancestors` map points
into the closed set with strictly decreasing closing ranks (so it is
acyclic), and `construct_path(ancestors, end)` terminates for every
section `end`, returning a path whose last element is `end` and whose
first element has no recorded predecessor. -/
theorem c10_ancestors_acyclic {V : Type} [DecidableEq V] [TieLt V]
    (graph : PGraph V) (d : Point → Point → ℚ) (start goal : V) (n : Nat)
    (st : AState V) (h : runAstar graph d start goal n = .inl st) :
    AncInv st.ancestors st.closed ∧
    ∀ e : V, ∃ p f, construct_path st.ancestors e = some p ∧
      p.getLast? = some e ∧ p.head? = some f ∧
      alGet st.ancestors f = none := by
  have hinv := runAstar_ancInv graph d start goal n st h
  refine ⟨hinv, fun e => ?_⟩
  obtain ⟨ext, f, hgo, hlast, hf⟩ := cpGo_ok hinv
    (st.ancestors.length + 1) e [e] (by simp)
    (by
      intro hs
      have hlt := countP_lt_length (alGet_isSome_mem hs)
        (p := fun k => decide (rankIn st.closed k < rankIn st.closed e))
        (by simp)
      rw [List.length_map] at hlt
      omega)
    (by intro _; omega)
  refine ⟨([e] ++ ext).reverse, f, hgo, ?_, ?_, hf⟩
  · rw [List.getLast?_reverse]
    simp
  · rw [List.head?_reverse]
    exact hlast

/-- C10 witness: the initial state of a run, with `end = "A"`. -/
theorem c10_ancestors_acyclic_witness :
    runAstar exNoPathGraph dist0 "A" "G" 0 = .inl exInitState ∧
    (AncInv exInitState.ancestors exInitState.closed ∧
      ∀ e : String, ∃ p f, construct_path exInitState.ancestors e = some p ∧
        p.getLast? = some e ∧ p.head? = some f ∧
        alGet exInitState.ancestors f = none) :=
  ⟨by decide, c10_ancestors_acyclic exNoPathGraph dist0 "A" "G" 0
    exInitState (by decide)⟩

/-! ## C7 — pass 1 tiles every way into at least one section

The junction scan of graphbuilder.py:40-56 emits `(last_junction, n)`
pairs whose ends chain, starting at `nodes[0]` and ending at
`nodes[-1]`; `_build_section` stores exactly these pairs as the
`start_node` / `end_node` attributes of the vertices `way_0, way_1, …`
and increments `sections` once per pair. -/

/-- The junction scan with an accumulator only appends to it. -/
theorem sectionScanAux_acc (isJ : Int → Bool) :
    ∀ (t : List Int) (lastJ : Int) (acc : List (Int × Int)),
      sectionScanAux isJ t lastJ acc =
        (acc ++ (sectionScanAux isJ t lastJ []).1,
         (sectionScanAux isJ t lastJ []).2) := by
  intro t
  induction t with
  | nil => intro lastJ acc; simp [sectionScanAux]
  | cons n t ih =>
      intro lastJ acc
      by_cases hj : isJ n = true
      · simp only [sectionScanAux, hj, if_true, List.nil_append]
        rw [ih n (acc ++ [(lastJ, n)]), ih n [(lastJ, n)]]
        simp
      · simp only [sectionScanAux, hj, if_false]
        exact ih lastJ acc

/-- The emitted pairs chain: each section starts where the previous one
ended, the first starts at the running `last_junction` and the last
ends at the final junction the scan reports. -/
theorem sectionScanAux_spec (isJ : Int → Bool) :
    ∀ (t : List Int) (lastJ : Int),
      List.Chain' (fun x y : Int × Int => x.2 = y.1)
        (sectionScanAux isJ t lastJ []).1 ∧
      ((sectionScanAux isJ t lastJ []).1 = [] ∧
          (sectionScanAux isJ t lastJ []).2 = lastJ ∨
        ((sectionScanAux isJ t lastJ []).1.head?.map Prod.fst =
            some lastJ ∧
          (sectionScanAux isJ t lastJ []).1.getLast?.map Prod.snd =
            some (sectionScanAux isJ t lastJ []).2)) := by
  intro t
  induction t with
  | nil => intro lastJ; exact ⟨List.chain'_nil, Or.inl ⟨rfl, rfl⟩⟩
  | cons n t ih =>
      intro lastJ
      by_cases hj : isJ n = true
      · simp only [sectionScanAux, hj, if_true, List.nil_append]
        rw [sectionScanAux_acc isJ t n [(lastJ, n)]]
        obtain ⟨hchain, hrest⟩ := ih n
        cases hq : (sectionScanAux isJ t n []).1 with
        | nil =>
            constructor
            · simp [hq]
            · refine Or.inr ⟨rfl, ?_⟩
              rcases hrest with ⟨_, he2⟩ | ⟨hh, _⟩
              · simp [hq, he2]
              · rw [hq] at hh; simp at hh
        | cons z zs =>
            have hz : z.1 = n := by
              rcases hrest with ⟨he, _⟩ | ⟨hh, _⟩
              · rw [hq] at he; cases he
              · rw [hq] at hh
                simp at hh
                exact hh
            constructor
            · rw [hq] at hchain
              show List.Chain' (fun x y : Int × Int => x.2 = y.1)
                ((lastJ, n) :: z :: zs)
              exact List.chain'_cons.mpr ⟨hz.symm, hchain⟩
            · refine Or.inr ⟨rfl, ?_⟩
              rcases hrest with ⟨he, _⟩ | ⟨_, hl⟩
              · rw [hq] at he; cases he
              · rw [hq] at hl
                show Option.map Prod.snd ((lastJ, n) :: z :: zs).getLast? = _
                rw [List.getLast?_cons_cons]
                exact hl
      · simp only [sectionScanAux, hj, if_false]
        exact ih lastJ

/-- The scan emits a pair as soon as some node of the tail is a
junction. -/
theorem sectionScanAux_ne (isJ : Int → Bool) :
    ∀ (t : List Int) (lastJ : Int) (n : Int), n ∈ t → isJ n = true →
      (sectionScanAux isJ t lastJ []).1 ≠ [] := by
  intro t
  induction t with
  | nil => intro lastJ n hn; cases hn
  | cons m t ih =>
      intro lastJ n hn hj
      by_cases hm : isJ m = true
      · simp only [sectionScanAux, hm, if_true, List.nil_append]
        rw [sectionScanAux_acc isJ t m [(lastJ, m)]]
        simp
      · rcases List.mem_cons.mp hn with he | ht
        · subst he; exact absurd hj (by simp [hm])
        · simp only [sectionScanAux, hm, if_false]
          exact ih lastJ n ht hj

/-- For a list of at least two nodes, the last node lies in the tail. -/
theorem getLastD_mem_tail {ns : List Int} (hlen : 2 ≤ ns.length) :
    ns.getLastD 0 ∈ ns.tail := by
  cases ns with
  | nil => simp at hlen
  | cons a t =>
      cases t with
      | nil => simp at hlen
      | cons b u =>
          simp only [List.tail_cons]
          have h1 : (a :: b :: u).getLastD 0 = u.getLastD b := by
            rw [List.getLastD_cons, List.getLastD_cons]
          rw [h1]
          exact List.getLastD_mem_cons u b

/-- `sectionPairs` of a list of at least two nodes whose last node is a
junction whenever the way is closed: non-empty, chaining, starting at
the first node and ending at the last. -/
theorem sectionPairs_spec (isJ : Int → Bool) (ns : List Int)
    (hlen : 2 ≤ ns.length)
    (hcj : ns.headD 0 = ns.getLastD 0 → isJ (ns.getLastD 0) = true) :
    sectionPairs isJ ns ≠ [] ∧
    (sectionPairs isJ ns).head?.map Prod.fst = some (ns.headD 0) ∧
    List.Chain' (fun x y : Int × Int => x.2 = y.1) (sectionPairs isJ ns) ∧
    (sectionPairs isJ ns).getLast?.map Prod.snd = some (ns.getLastD 0) := by
  obtain ⟨hchain, hrest⟩ := sectionScanAux_spec isJ ns.tail (ns.headD 0)
  unfold sectionPairs
  by_cases htr :
      (sectionScanAux isJ ns.tail (ns.headD 0) []).2 ≠ ns.getLastD 0
  · rw [if_pos htr]
    rcases hrest with ⟨he, hl⟩ | ⟨hh, hl⟩
    · rw [he, hl]
      refine ⟨by simp, by simp, by simp, by simp⟩
    · cases hq : (sectionScanAux isJ ns.tail (ns.headD 0) []).1 with
      | nil => rw [hq] at hh; simp at hh
      | cons z zs =>
          rw [hq] at hchain hh hl
          refine ⟨by simp, ?_, ?_, ?_⟩
          · simpa using hh
          · rw [List.chain'_append]
            refine ⟨hchain, List.chain'_singleton _, ?_⟩
            intro x hx y hy
            simp only [List.head?_cons, Option.mem_def,
              Option.some.injEq] at hy
            subst hy
            simp only [Option.mem_def] at hx
            rw [hx] at hl
            simpa using hl
          · rw [List.getLast?_concat]
            rfl
  · rw [if_neg htr]
    push_neg at htr
    rcases hrest with ⟨he, hl⟩ | ⟨hh, hl⟩
    · exfalso
      have hc : ns.headD 0 = ns.getLastD 0 := by rw [← hl, htr]
      exact sectionScanAux_ne isJ ns.tail (ns.headD 0) _
        (getLastD_mem_tail hlen) (hcj hc) he
    · cases hq : (sectionScanAux isJ ns.tail (ns.headD 0) []).1 with
      | nil => rw [hq] at hh; simp at hh
      | cons z zs =>
          rw [hq] at hchain hh hl
          refine ⟨by simp, by simpa using hh, hchain, ?_⟩
          rw [hl, htr]

/-- `add_edge` never touches the node list. -/
theorem addEdgeIfNew_nodesL (g : BGraph) (e : SName × SName) :
    (addEdgeIfNew g e).nodesL = g.nodesL := by
  unfold addEdgeIfNew; split <;> rfl

/-- `_build_section` increments the way's `sections` counter and changes
nothing else about the way. -/
theorem build_section_way (nodes : Int → Node) (d : Point → Point → ℚ)
    (w : Way) (g : BGraph) (s e : Int) :
    (build_section nodes d w g s e).2 = { w with sections := w.sections + 1 } :=
  rfl

/-- `_build_section` appends exactly one vertex, named by the way id and
the current counter and carrying `secAttrs` of the delimiting pair. -/
theorem build_section_nodesL (nodes : Int → Node) (d : Point → Point → ℚ)
    (w : Way) (g : BGraph) (s e : Int) :
    (build_section nodes d w g s e).1.nodesL =
      g.nodesL ++ [((w.id, w.sections),
        secAttrs nodes d w.nodes w.tags w.id (s, e))] := by
  simp only [build_section, addNode]
  split
  · split
    · rw [addEdgeIfNew_nodesL, addEdgeIfNew_nodesL]; rfl
    · rw [addEdgeIfNew_nodesL]; rfl
  · rfl

/-- The stored `start_node` attribute is the pair's first component. -/
theorem secAttrs_start (nodes : Int → Node) (d : Point → Point → ℚ)
    (wnodes : List Int) (wtags : Tags) (wid : Int) (p : Int × Int) :
    dictGet (secAttrs nodes d wnodes wtags wid p) "start_node" =
      some (.node p.1) := rfl

/-- The stored `end_node` attribute is the pair's second component. -/
theorem secAttrs_end (nodes : Int → Node) (d : Point → Point → ℚ)
    (wnodes : List Int) (wtags : Tags) (wid : Int) (p : Int × Int) :
    dictGet (secAttrs nodes d wnodes wtags wid p) "end_node" =
      some (.node p.2) := rfl

/-- The interleaved scan-and-build loop of pass 1 equals the junction
scan followed by folding `_build_section` over the scanned pairs. -/
theorem sectionLoop_eq (nodes : Int → Node) (d : Point → Point → ℚ) :
    ∀ (t : List Int) (lastJ : Int) (g : BGraph) (w : Way),
      sectionLoop nodes d t lastJ g w =
        ((sectionScanAux (isJunction nodes) t lastJ []).2,
         pairsFold nodes d (sectionScanAux (isJunction nodes) t lastJ []).1
           (g, w)) := by
  intro t
  induction t with
  | nil => intro lastJ g w; rfl
  | cons n t ih =>
      intro lastJ g w
      by_cases hj : 1 < ((nodes n).ways).length
      · have hj' : isJunction nodes n = true := decide_eq_true hj
        simp only [sectionLoop, sectionScanAux, hj', if_true, if_pos hj,
          List.nil_append]
        rw [sectionScanAux_acc (isJunction nodes) t n [(lastJ, n)]]
        rw [ih n (build_section nodes d w g lastJ n).1
          (build_section nodes d w g lastJ n).2]
        rfl
      · have hj' : isJunction nodes n = false := by
          simp [isJunction, hj]
        simp only [sectionLoop, sectionScanAux, hj', if_neg hj,
          Bool.false_eq_true, if_false]
        exact ih lastJ g w

/-- Folding `_build_section` over `ps` adds `ps.length` to the way's
`sections` counter. -/
theorem pairsFold_way (nodes : Int → Node) (d : Point → Point → ℚ) :
    ∀ (ps : List (Int × Int)) (g : BGraph) (w : Way),
      (pairsFold nodes d ps (g, w)).2 =
        { w with sections := w.sections + ps.length } := by
  intro ps
  induction ps with
  | nil => intro g w; show w = _; cases w; simp
  | cons p ps ih =>
      intro g w
      have hstep : pairsFold nodes d (p :: ps) (g, w) =
          pairsFold nodes d ps ((build_section nodes d w g p.1 p.2).1,
            { w with sections := w.sections + 1 }) := by
        show pairsFold nodes d ps (build_section nodes d w g p.1 p.2) = _
        rw [show build_section nodes d w g p.1 p.2 =
          ((build_section nodes d w g p.1 p.2).1,
            { w with sections := w.sections + 1 }) from
          Prod.ext rfl (build_section_way nodes d w g p.1 p.2)]
      rw [hstep, ih]
      show Way.mk w.id w.tags w.nodes (w.sections + 1 + ps.length) = _
      simp only [List.length_cons]
      congr 1
      omega

/-- Folding `_build_section` over `ps` appends, in order, one vertex per
pair: the `k`-th is named `(w.id, w.sections + k)` and carries the
attributes of the `k`-th pair. -/
theorem pairsFold_nodesL (nodes : Int → Node) (d : Point → Point → ℚ) :
    ∀ (ps : List (Int × Int)) (g : BGraph) (w : Way),
      (pairsFold nodes d ps (g, w)).1.nodesL =
        g.nodesL ++ (List.range ps.length).map
          (fun k => ((w.id, w.sections + k),
            secAttrs nodes d w.nodes w.tags w.id (ps.getD k (0, 0)))) := by
  intro ps
  induction ps with
  | nil => intro g w; simp [pairsFold]
  | cons p ps ih =>
      intro g w
      have hstep : pairsFold nodes d (p :: ps) (g, w) =
          pairsFold nodes d ps ((build_section nodes d w g p.1 p.2).1,
            { w with sections := w.sections + 1 }) := by
        show pairsFold nodes d ps (build_section nodes d w g p.1 p.2) = _
        rw [show build_section nodes d w g p.1 p.2 =
          ((build_section nodes d w g p.1 p.2).1,
            { w with sections := w.sections + 1 }) from
          Prod.ext rfl (build_section_way nodes d w g p.1 p.2)]
      rw [hstep, ih, build_section_nodesL]
      show g.nodesL ++ [((w.id, w.sections),
          secAttrs nodes d w.nodes w.tags w.id (p.1, p.2))] ++
        List.map (fun k => ((w.id, w.sections + 1 + k),
          secAttrs nodes d w.nodes w.tags w.id (ps.getD k (0, 0))))
          (List.range ps.length) = _
      rw [List.append_assoc]
      congr 1
      rw [List.length_cons, List.range_succ_eq_map, List.map_cons,
        List.map_map, List.singleton_append]
      simp only [Nat.add_zero, List.getD_cons_zero]
      congr 1
      apply List.map_congr_left
      intro k _
      have hkk : w.sections + 1 + k = w.sections + Nat.succ k := by omega
      simp only [Function.comp_apply, List.getD_cons_succ, hkk]

/-- Pass 1 on a single way: the `sections` counter grows by the number
of `sectionPairs` of the node list, and one vertex per pair is appended
to the graph, named `(w.id, w.sections + k)` and carrying the attributes
of the `k`-th pair. -/
theorem buildWay_spec (nodes : Int → Node) (d : Point → Point → ℚ)
    (g : BGraph) (w : Way) :
    (buildWay nodes d g w).2 =
      { w with sections := w.sections +
          (sectionPairs (isJunction nodes) w.nodes).length } ∧
    (buildWay nodes d g w).1.nodesL =
      g.nodesL ++
        (List.range (sectionPairs (isJunction nodes) w.nodes).length).map
          (fun k => ((w.id, w.sections + k),
            secAttrs nodes d w.nodes w.tags w.id
              ((sectionPairs (isJunction nodes) w.nodes).getD k (0, 0)))) := by
  simp only [buildWay, sectionLoop_eq nodes d, sectionPairs]
  rw [pairsFold_way]
  by_cases htr :
      (sectionScanAux (isJunction nodes) w.nodes.tail
        (w.nodes.headD 0) []).2 ≠ w.nodes.getLastD 0
  · rw [if_pos htr, if_pos htr]
    constructor
    · rw [build_section_way]
      dsimp only
      rw [List.length_append, List.length_cons, List.length_nil]
      congr 1
    · rw [apply_ite PGraph.nodesL, addEdgeIfNew_nodesL, ite_self,
        build_section_nodesL, pairsFold_nodesL]
      dsimp only
      rw [List.append_assoc]
      congr 1
      rw [List.length_append, List.length_cons, List.length_nil,
        Nat.zero_add, List.range_succ, List.map_append]
      congr 1
      · apply List.map_congr_left
        intro k hk
        rw [List.getD_append _ _ _ k (List.mem_range.mp hk)]
      · rw [List.map_cons, List.map_nil,
          List.getD_append_right _ _ _ _ (le_refl _), Nat.sub_self]
        rfl
  · rw [if_neg htr, if_neg htr]
    constructor
    · rfl
    · rw [apply_ite PGraph.nodesL, addEdgeIfNew_nodesL, ite_self]
      exact pairsFold_nodesL nodes d _ g w

/-- Pass 1 appends, per way, the way with the new `sections` counter to
the accumulator; the transformation of a way is independent of the graph
accumulated so far. -/
theorem pass1_ways_aux (nodes : Int → Node) (d : Point → Point → ℚ) :
    ∀ (ways : List (Int × Way)) (g : BGraph) (acc : List (Int × Way)),
      (ways.foldl (pass1Step nodes d) (g, acc)).2 =
        acc ++ ways.map (fun p => (p.1,
          { p.2 with sections := p.2.sections +
              (sectionPairs (isJunction nodes) p.2.nodes).length })) := by
  intro ways
  induction ways with
  | nil => intro g acc; simp
  | cons p t ih =>
      intro g acc
      rw [List.foldl_cons]
      show (t.foldl (pass1Step nodes d)
        ((buildWay nodes d g p.2).1,
          acc ++ [(p.1, (buildWay nodes d g p.2).2)])).2 = _
      rw [ih, (buildWay_spec nodes d g p.2).1, List.map_cons,
        List.append_assoc, List.singleton_append]

/-- Pass 1 appends, per way in order, the block of section vertices
`buildWay` emits for it. -/
theorem pass1_nodesL_aux (nodes : Int → Node) (d : Point → Point → ℚ) :
    ∀ (ways : List (Int × Way)) (g : BGraph) (acc : List (Int × Way)),
      (ways.foldl (pass1Step nodes d) (g, acc)).1.nodesL =
        g.nodesL ++ (ways.map (fun p =>
          (List.range (sectionPairs (isJunction nodes) p.2.nodes).length).map
            (fun k => ((p.2.id, p.2.sections + k),
              secAttrs nodes d p.2.nodes p.2.tags p.2.id
                ((sectionPairs (isJunction nodes) p.2.nodes).getD
                  k (0, 0)))))).flatten := by
  intro ways
  induction ways with
  | nil => intro g acc; simp
  | cons p t ih =>
      intro g acc
      rw [List.foldl_cons]
      show (t.foldl (pass1Step nodes d)
        ((buildWay nodes d g p.2).1,
          acc ++ [(p.1, (buildWay nodes d g p.2).2)])).1.nodesL = _
      rw [ih, (buildWay_spec nodes d g p.2).2, List.map_cons,
        List.flatten_cons, List.append_assoc]

/-- A fold whose every step preserves the node list preserves it
overall. -/
theorem foldl_nodesL {β : Type} {f : BGraph → β → BGraph}
    (hf : ∀ (g : BGraph) (x : β), (f g x).nodesL = g.nodesL) :
    ∀ (l : List β) (g : BGraph), (l.foldl f g).nodesL = g.nodesL := by
  intro l
  induction l with
  | nil => intro g; rfl
  | cons x t ih => intro g; rw [List.foldl_cons, ih, hf]

/-- The inner loop of `_connect_sections` only adds edges. -/
theorem connectToSections_nodesL (ways : List (Int × Way)) (g : BGraph)
    (name : SName) (node : Int) (ow : Int) :
    (connectToSections ways g name node ow).nodesL = g.nodesL := by
  unfold connectToSections
  apply foldl_nodesL
  intro g x
  dsimp only
  split <;> split <;> simp [addEdgeIfNew_nodesL]

/-- `_connect_sections` only adds edges. -/
theorem connect_sections_nodesL (nodes : Int → Node)
    (ways : List (Int × Way)) (g : BGraph) (cw : Int) (name : SName)
    (node : Int) :
    (connect_sections nodes ways g cw name node).nodesL = g.nodesL := by
  unfold connect_sections
  apply foldl_nodesL
  intro g x
  split
  · rfl
  · exact connectToSections_nodesL ways g name node x

/-- Wiring one section in pass 2 only adds edges. -/
theorem wireSection_nodesL (nodes : Int → Node) (ways : List (Int × Way))
    (g : BGraph) (cw : Int) (sec : Nat) :
    (wireSection nodes ways g cw sec).nodesL = g.nodesL := by
  unfold wireSection
  dsimp only
  have h1 : ∀ (gg : BGraph),
      (if !(lookupWay ways cw).is_oneway then
        match dictGet ((alGet gg.nodesL (cw, sec)).getD []) "start_node" with
        | some (.node v) =>
            connect_sections nodes ways gg cw (cw, sec) v
        | _ => gg
      else gg).nodesL = gg.nodesL := by
    intro gg
    split
    · split
      · rw [connect_sections_nodesL]
      · rfl
    · rfl
  split
  · rw [connect_sections_nodesL, h1]
  · rw [h1]

/-- Pass 2 of the builder only adds edges: the vertex list of the final
graph is the one pass 1 made. -/
theorem buildPass2_nodesL (nodes : Int → Node) (ways : List (Int × Way))
    (g : BGraph) : (buildPass2 nodes ways g).nodesL = g.nodesL := by
  unfold buildPass2
  apply foldl_nodesL
  intro g iw
  apply foldl_nodesL
  intro g sec
  exact wireSection_nodesL nodes ways g iw.1 sec

/-- A key found in the left part of an appended dictionary is found in
the whole. -/
theorem alGet_append_left {κ α : Type} [DecidableEq κ]
    {l1 : List (κ × α)} {k : κ} {v : α} (h : alGet l1 k = some v)
    (l2 : List (κ × α)) : alGet (l1 ++ l2) k = some v := by
  induction l1 with
  | nil => simp [alGet] at h
  | cons p t ih =>
      rw [List.cons_append]
      unfold alGet at h ⊢
      split at h
      · rw [if_pos (by assumption)]; exact h
      · rw [if_neg (by assumption)]; exact ih h

/-- A key absent from the left part of an appended dictionary is looked
up in the right part. -/
theorem alGet_append_right {κ α : Type} [DecidableEq κ]
    {l1 : List (κ × α)} {k : κ} (h : ∀ p ∈ l1, p.1 ≠ k)
    (l2 : List (κ × α)) : alGet (l1 ++ l2) k = alGet l2 k := by
  induction l1 with
  | nil => rfl
  | cons p t ih =>
      rw [List.cons_append]
      show (if p.1 = k then some p.2 else alGet (t ++ l2) k) = alGet l2 k
      rw [if_neg (h p (List.mem_cons_self p t))]
      exact ih (fun q hq => h q (List.mem_cons_of_mem p hq))

/-- Looking a consecutively-numbered block of vertices up at the `j`-th
name yields the `j`-th attribute dict. -/
theorem alGet_range_map {α : Type} (a : Int) (f : Nat → α) :
    ∀ (n : Nat) (c j : Nat), j < n →
      alGet ((List.range n).map (fun k => (((a, c + k) : SName), f k)))
        (a, c + j) = some (f j) := by
  intro n
  induction n with
  | zero => intro c j hj; omega
  | succ n ih =>
      intro c j hj
      rw [List.range_succ, List.map_append]
      by_cases hcase : j < n
      · exact alGet_append_left (ih c j hcase) _
      · have hjn : j = n := by omega
        subst hjn
        rw [alGet_append_right]
        · simp [alGet]
        · intro p hp
          simp only [List.mem_map, List.mem_range] at hp
          obtain ⟨k, hk, hpk⟩ := hp
          rw [← hpk]
          intro hcon
          simp only [Prod.mk.injEq] at hcon
          omega

/-- Looking up a key-preserving map of a duplicate-free dictionary. -/
theorem alGet_map_self (F : Int × Way → Way) :
    ∀ (l : List (Int × Way)) (i : Int) (w : Way),
      (i, w) ∈ l → (l.map Prod.fst).Nodup →
      alGet (l.map (fun p => (p.1, F p))) i = some (F (i, w)) := by
  intro l
  induction l with
  | nil => intro i w hm; cases hm
  | cons p t ih =>
      intro i w hm hnd
      rw [List.map_cons]
      unfold alGet
      rw [List.map_cons] at hnd
      by_cases hpi : p.1 = i
      · rw [if_pos hpi]
        have hpw : p = (i, w) := by
          rcases List.mem_cons.mp hm with he | ht
          · exact he.symm
          · exfalso
            have : i ∈ t.map Prod.fst :=
              List.mem_map.mpr ⟨(i, w), ht, rfl⟩
            rw [← hpi] at this
            exact (List.nodup_cons.mp hnd).1 this
        rw [hpw]
      · rw [if_neg hpi]
        have ht : (i, w) ∈ t := by
          rcases List.mem_cons.mp hm with he | ht
          · exact absurd (congrArg Prod.fst he.symm) hpi
          · exact ht
        exact ih i w ht (List.nodup_cons.mp hnd).2

/-- On a closed way whose back-references are populated (each occurrence
of a node in the way contributes one entry to `node.ways`), the shared
first/last node is a junction: it occurs at least twice in the way, so
its back-reference list has at least two entries. -/
theorem closed_junction (nodes : Int → Node) (i : Int) (w : Way)
    (hlen : 2 ≤ w.nodes.length)
    (hback : ∀ n ∈ w.nodes, w.nodes.count n ≤ ((nodes n).ways).count i)
    (hcl : w.nodes.headD 0 = w.nodes.getLastD 0) :
    isJunction nodes (w.nodes.getLastD 0) = true := by
  have hmt : w.nodes.getLastD 0 ∈ w.nodes.tail := getLastD_mem_tail hlen
  have hmn : w.nodes.getLastD 0 ∈ w.nodes := List.mem_of_mem_tail hmt
  have hc2 : 2 ≤ w.nodes.count (w.nodes.getLastD 0) := by
    cases hns : w.nodes with
    | nil => rw [hns] at hmn; cases hmn
    | cons a t =>
        rw [hns] at hcl hmt
        simp only [List.headD_cons] at hcl
        simp only [List.tail_cons] at hmt
        rw [← hcl] at hmt ⊢
        rw [List.count_cons_self]
        have h1 : 0 < t.count a := List.count_pos_iff.mpr hmt
        omega
  have h2 := hback _ hmn
  have h3 := List.count_le_length i ((nodes (w.nodes.getLastD 0)).ways)
  simp only [isJunction, decide_eq_true_eq]
  omega

/-- **C7**: for every way of at least two nodes whose back-references
are populated the way the loader populates them (one entry per
occurrence), pass 1 leaves `sections ≥ 1` on the way, and the emitted
sections tile the way in order: they chain start-to-end, section 0
starts at `nodes[0]`, the last section ends at `nodes[-1]`, and the
built graph holds vertex `(way, k)` with exactly the `k`-th pair as its
`start_node`/`end_node` attributes. -/
theorem c7_sections_tile_way (nodes : Int → Node) (d : Point → Point → ℚ)
    (ways : List (Int × Way)) (i : Int) (w : Way)
    (hmem : (i, w) ∈ ways)
    (hid : ∀ p ∈ ways, p.2.id = p.1)
    (hsec0 : ∀ p ∈ ways, p.2.sections = 0)
    (hnodup : (ways.map Prod.fst).Nodup)
    (hlen : 2 ≤ w.nodes.length)
    (hback : ∀ n ∈ w.nodes, w.nodes.count n ≤ ((nodes n).ways).count i) :
    ∃ ps : List (Int × Int),
      1 ≤ ps.length ∧
      alGet (waysAfterPass1 nodes d ways) i =
        some { w with sections := ps.length } ∧
      ps.head?.map Prod.fst = some (w.nodes.headD 0) ∧
      List.Chain' (fun x y : Int × Int => x.2 = y.1) ps ∧
      ps.getLast?.map Prod.snd = some (w.nodes.getLastD 0) ∧
      ∀ k : Nat, k < ps.length →
        ∃ a : Attrs,
          alGet (build nodes d ways).nodesL ((i, k) : SName) = some a ∧
          dictGet a "start_node" = some (.node (ps.getD k (0, 0)).1) ∧
          dictGet a "end_node" = some (.node (ps.getD k (0, 0)).2) := by
  have hwid : w.id = i := hid (i, w) hmem
  have hwsec : w.sections = 0 := hsec0 (i, w) hmem
  obtain ⟨hne, hhead, hchain, hlast⟩ :=
    sectionPairs_spec (isJunction nodes) w.nodes hlen
      (fun hcl => closed_junction nodes i w hlen hback hcl)
  refine ⟨sectionPairs (isJunction nodes) w.nodes,
    List.length_pos.mpr hne, ?_, hhead, hchain, hlast, ?_⟩
  · unfold waysAfterPass1 buildPass1
    rw [pass1_ways_aux, List.nil_append]
    refine (alGet_map_self (fun p => { p.2 with sections :=
      p.2.sections +
        (sectionPairs (isJunction nodes) p.2.nodes).length })
      ways i w hmem hnodup).trans ?_
    have h2 : w.sections +
        (sectionPairs (isJunction nodes) w.nodes).length =
        (sectionPairs (isJunction nodes) w.nodes).length := by
      rw [hwsec]; exact Nat.zero_add _
    exact congrArg (fun m => some { w with sections := m }) h2
  · intro k hk
    refine ⟨secAttrs nodes d w.nodes w.tags w.id
        ((sectionPairs (isJunction nodes) w.nodes).getD k (0, 0)),
      ?_, secAttrs_start nodes d w.nodes w.tags w.id _,
      secAttrs_end nodes d w.nodes w.tags w.id _⟩
    show alGet (build nodes d ways).nodesL ((i, k) : SName) = _
    simp only [build, buildPass1]
    rw [buildPass2_nodesL, pass1_nodesL_aux]
    obtain ⟨pre, post, hsplit⟩ := List.append_of_mem hmem
    subst hsplit
    rw [List.map_append, List.map_cons, List.flatten_append,
      List.flatten_cons]
    have hpre : ∀ q ∈ (pre.map (fun p =>
        (List.range (sectionPairs (isJunction nodes) p.2.nodes).length).map
          (fun k' => ((p.2.id, p.2.sections + k'),
            secAttrs nodes d p.2.nodes p.2.tags p.2.id
              ((sectionPairs (isJunction nodes) p.2.nodes).getD
                k' (0, 0)))))).flatten,
        q.1 ≠ ((i, k) : SName) := by
      intro q hq
      rw [List.mem_flatten] at hq
      obtain ⟨bl, hbl, hqbl⟩ := hq
      rw [List.mem_map] at hbl
      obtain ⟨p, hp, hbleq⟩ := hbl
      rw [← hbleq, List.mem_map] at hqbl
      obtain ⟨k', _, hqeq⟩ := hqbl
      subst hqeq
      have hpid : p.2.id = p.1 :=
        hid p (List.mem_append.mpr (Or.inl hp))
      have hpi : p.1 ≠ i := by
        intro hcon
        rw [List.map_append, List.map_cons] at hnodup
        exact (List.nodup_append.mp hnodup).2.2
          (List.mem_map.mpr ⟨p, hp, rfl⟩)
          (by rw [hcon]; exact List.mem_cons_self _ _)
      intro hconq
      simp only [Prod.mk.injEq] at hconq
      exact hpi (hpid ▸ hconq.1)
    dsimp only
    rw [List.nil_append, alGet_append_right hpre]
    rw [show ((i, k) : SName) = ((w.id, w.sections + k) : SName) from by
      rw [hwid, hwsec, Nat.zero_add]]
    exact alGet_append_left
      (alGet_range_map w.id
        (fun k' => secAttrs nodes d w.nodes w.tags w.id
          ((sectionPairs (isJunction nodes) w.nodes).getD k' (0, 0)))
        (sectionPairs (isJunction nodes) w.nodes).length
        w.sections k hk) _

/-- The tiling theorem applied to the concrete two-node way 10 with
populated back-references. -/
theorem c7_sections_tile_way_witness :
    ((10, exWayStraight) ∈ [((10 : Int), exWayStraight)]) ∧
    (∀ p ∈ [((10 : Int), exWayStraight)], p.2.id = p.1) ∧
    (∀ p ∈ [((10 : Int), exWayStraight)], p.2.sections = 0) ∧
    (([((10 : Int), exWayStraight)].map Prod.fst).Nodup) ∧
    2 ≤ exWayStraight.nodes.length ∧
    (∀ n ∈ exWayStraight.nodes,
      exWayStraight.nodes.count n ≤ ((exNodesStraight n).ways).count 10) ∧
    ∃ ps : List (Int × Int),
      1 ≤ ps.length ∧
      alGet (waysAfterPass1 exNodesStraight dist0
          [((10 : Int), exWayStraight)]) 10 =
        some { exWayStraight with sections := ps.length } ∧
      ps.head?.map Prod.fst = some (exWayStraight.nodes.headD 0) ∧
      List.Chain' (fun x y : Int × Int => x.2 = y.1) ps ∧
      ps.getLast?.map Prod.snd = some (exWayStraight.nodes.getLastD 0) ∧
      ∀ k : Nat, k < ps.length →
        ∃ a : Attrs,
          alGet (build exNodesStraight dist0
              [((10 : Int), exWayStraight)]).nodesL ((10, k) : SName) =
            some a ∧
          dictGet a "start_node" = some (.node (ps.getD k (0, 0)).1) ∧
          dictGet a "end_node" = some (.node (ps.getD k (0, 0)).2) :=
  ⟨by decide, by decide, by decide, by decide, by decide, by decide,
    c7_sections_tile_way exNodesStraight dist0
      [((10 : Int), exWayStraight)] 10 exWayStraight (by decide)
      (by decide) (by decide) (by decide) (by decide) (by decide)⟩

/-- An edge found after `add_edge` was already there or is the added
one. -/
theorem addEdgeIfNew_edges {g : BGraph} {e e' : SName × SName}
    (h : e' ∈ (addEdgeIfNew g e).edges) : e' ∈ g.edges ∨ e' = e := by
  unfold addEdgeIfNew at h
  split at h
  · rcases List.mem_append.mp h with h1 | h1
    · exact Or.inl h1
    · exact Or.inr (List.mem_singleton.mp h1)
  · exact Or.inl h

/-- The edges `_build_section` adds are intra-way: forward between
consecutive sections, or backward when the way is bidirectional. -/
theorem build_section_edges (nodes : Int → Node) (d : Point → Point → ℚ)
    (w : Way) (g : BGraph) (s e : Int) :
    ∀ e' ∈ (build_section nodes d w g s e).1.edges,
      e' ∈ g.edges ∨
      (e'.1.1 = w.id ∧ e'.2.1 = w.id ∧
        (e'.2.2 = e'.1.2 + 1 ∨
         (e'.1.2 = e'.2.2 + 1 ∧ w.is_oneway = false))) := by
  intro e' he
  simp only [build_section, addNode] at he
  split at he
  · rename_i hpos
    split at he
    · rename_i hbi
      rcases addEdgeIfNew_edges he with he1 | he1
      · rcases addEdgeIfNew_edges he1 with he2 | he2
        · exact Or.inl he2
        · refine Or.inr ?_
          rw [he2]
          refine ⟨rfl, rfl, Or.inl ?_⟩
          show w.sections = w.sections - 1 + 1
          omega
      · refine Or.inr ?_
        rw [he1]
        refine ⟨rfl, rfl, Or.inr ⟨?_, ?_⟩⟩
        · show w.sections = w.sections - 1 + 1
          omega
        · rw [Bool.not_eq_true'] at hbi
          exact hbi
    · rcases addEdgeIfNew_edges he with he1 | he1
      · exact Or.inl he1
      · refine Or.inr ?_
        rw [he1]
        refine ⟨rfl, rfl, Or.inl ?_⟩
        show w.sections = w.sections - 1 + 1
        omega
  · exact Or.inl he

/-- Folding `_build_section` over pairs only adds intra-way chain
edges. -/
theorem pairsFold_edges (nodes : Int → Node) (d : Point → Point → ℚ) :
    ∀ (ps : List (Int × Int)) (g : BGraph) (w : Way),
      ∀ e' ∈ (pairsFold nodes d ps (g, w)).1.edges,
        e' ∈ g.edges ∨
        (e'.1.1 = w.id ∧ e'.2.1 = w.id ∧
          (e'.2.2 = e'.1.2 + 1 ∨
           (e'.1.2 = e'.2.2 + 1 ∧ w.is_oneway = false))) := by
  intro ps
  induction ps with
  | nil => intro g w e' he; exact Or.inl he
  | cons p ps ih =>
      intro g w e' he
      have hstep : pairsFold nodes d (p :: ps) (g, w) =
          pairsFold nodes d ps ((build_section nodes d w g p.1 p.2).1,
            { w with sections := w.sections + 1 }) := by
        show pairsFold nodes d ps (build_section nodes d w g p.1 p.2) = _
        rw [show build_section nodes d w g p.1 p.2 =
          ((build_section nodes d w g p.1 p.2).1,
            { w with sections := w.sections + 1 }) from
          Prod.ext rfl (build_section_way nodes d w g p.1 p.2)]
      rw [hstep] at he
      rcases ih _ _ e' he with h1 | h1
      · exact build_section_edges nodes d w g p.1 p.2 e' h1
      · exact Or.inr h1

/-- All edges pass 1 adds for one way are intra-way: forward chain
edges, backward chain edges on bidirectional ways, or the closing edge
from the last section to section 0 on a closed way. -/
theorem buildWay_edges (nodes : Int → Node) (d : Point → Point → ℚ)
    (g : BGraph) (w : Way) :
    ∀ e' ∈ (buildWay nodes d g w).1.edges,
      e' ∈ g.edges ∨
      (e'.1.1 = w.id ∧ e'.2.1 = w.id ∧
        (e'.2.2 = e'.1.2 + 1 ∨
         (e'.1.2 = e'.2.2 + 1 ∧ w.is_oneway = false) ∨
         (closedWay w = true ∧
           e' = ((w.id, w.sections +
             (sectionPairs (isJunction nodes) w.nodes).length - 1),
             (w.id, 0))))) := by
  intro e' he
  simp only [buildWay, sectionLoop_eq nodes d] at he
  rw [pairsFold_way] at he
  by_cases htr :
      (sectionScanAux (isJunction nodes) w.nodes.tail
        (w.nodes.headD 0) []).2 ≠ w.nodes.getLastD 0
  · rw [if_pos htr] at he
    by_cases hcl : w.nodes.headD 0 = w.nodes.getLastD 0
    · rw [if_pos hcl] at he
      rcases addEdgeIfNew_edges he with he1 | he1
      · rcases build_section_edges nodes d _ _ _ _ e' he1 with h2 | h2
        · rcases pairsFold_edges nodes d _ _ _ e' h2 with h3 | h3
          · exact Or.inl h3
          · exact Or.inr ⟨h3.1, h3.2.1, h3.2.2.imp id Or.inl⟩
        · exact Or.inr ⟨h2.1, h2.2.1, h2.2.2.imp id Or.inl⟩
      · refine Or.inr ?_
        rw [he1]
        refine ⟨rfl, rfl, Or.inr (Or.inr ⟨decide_eq_true hcl, ?_⟩)⟩
        show ((w.id,
          (build_section nodes d
            { w with sections := w.sections +
              (sectionScanAux (isJunction nodes) w.nodes.tail
                (w.nodes.headD 0) []).1.length }
            (pairsFold nodes d
              (sectionScanAux (isJunction nodes) w.nodes.tail
                (w.nodes.headD 0) []).1 (g, w)).1
            (sectionScanAux (isJunction nodes) w.nodes.tail
              (w.nodes.headD 0) []).2 (w.nodes.getLastD 0)).2.sections - 1),
          ((w.id : Int), (0 : Nat))) = _
        rw [build_section_way]
        simp only [sectionPairs, if_pos htr, List.length_append,
          List.length_cons, List.length_nil]
        rfl
    · rw [if_neg hcl] at he
      rcases build_section_edges nodes d _ _ _ _ e' he with h2 | h2
      · rcases pairsFold_edges nodes d _ _ _ e' h2 with h3 | h3
        · exact Or.inl h3
        · exact Or.inr ⟨h3.1, h3.2.1, h3.2.2.imp id Or.inl⟩
      · exact Or.inr ⟨h2.1, h2.2.1, h2.2.2.imp id Or.inl⟩
  · rw [if_neg htr] at he
    by_cases hcl : w.nodes.headD 0 = w.nodes.getLastD 0
    · rw [if_pos hcl] at he
      rcases addEdgeIfNew_edges he with he1 | he1
      · rcases pairsFold_edges nodes d _ _ _ e' he1 with h3 | h3
        · exact Or.inl h3
        · exact Or.inr ⟨h3.1, h3.2.1, h3.2.2.imp id Or.inl⟩
      · refine Or.inr ?_
        rw [he1]
        exact ⟨rfl, rfl, Or.inr (Or.inr ⟨decide_eq_true hcl, by
          simp only [sectionPairs, if_neg htr]⟩)⟩
    · rw [if_neg hcl] at he
      rcases pairsFold_edges nodes d _ _ _ e' he with h3 | h3
      · exact Or.inl h3
      · exact Or.inr ⟨h3.1, h3.2.1, h3.2.2.imp id Or.inl⟩

/-- At most one entry of a duplicate-free dictionary carries a given
key. -/
theorem mem_key_unique :
    ∀ {l : List (Int × Way)}, (l.map Prod.fst).Nodup →
      ∀ {p q : Int × Way}, p ∈ l → q ∈ l → p.1 = q.1 → p = q := by
  intro l
  induction l with
  | nil => intro _ p q hp; cases hp
  | cons a t ih =>
      intro hnd p q hp hq hpq
      rw [List.map_cons] at hnd
      rcases List.mem_cons.mp hp with hp1 | hp1 <;>
        rcases List.mem_cons.mp hq with hq1 | hq1
      · rw [hp1, hq1]
      · exfalso
        apply (List.nodup_cons.mp hnd).1
        rw [← hp1, hpq]
        exact List.mem_map.mpr ⟨q, hq1, rfl⟩
      · exfalso
        apply (List.nodup_cons.mp hnd).1
        rw [← hq1, ← hpq]
        exact List.mem_map.mpr ⟨p, hp1, rfl⟩
      · exact ih (List.nodup_cons.mp hnd).2 hp1 hq1 hpq

/-- Every edge pass 1 produces is an intra-way edge of one of the ways:
forward, backward on a bidirectional way, or the closing edge of a
closed way. -/
theorem pass1_edges (nodes : Int → Node) (d : Point → Point → ℚ) :
    ∀ (ways : List (Int × Way)) (g : BGraph) (acc : List (Int × Way)),
      ∀ e ∈ (ways.foldl (pass1Step nodes d) (g, acc)).1.edges,
        e ∈ g.edges ∨
        ∃ p ∈ ways,
          e.1.1 = p.2.id ∧ e.2.1 = p.2.id ∧
          (e.2.2 = e.1.2 + 1 ∨
           (e.1.2 = e.2.2 + 1 ∧ p.2.is_oneway = false) ∨
           (closedWay p.2 = true ∧
             e = ((p.2.id, p.2.sections +
               (sectionPairs (isJunction nodes) p.2.nodes).length - 1),
               (p.2.id, 0)))) := by
  intro ways
  induction ways with
  | nil => intro g acc e he; exact Or.inl he
  | cons p t ih =>
      intro g acc e he
      rw [List.foldl_cons] at he
      have he' : e ∈ (t.foldl (pass1Step nodes d)
          ((buildWay nodes d g p.2).1,
            acc ++ [(p.1, (buildWay nodes d g p.2).2)])).1.edges := he
      rcases ih _ _ e he' with h1 | h1
      · rcases buildWay_edges nodes d g p.2 e h1 with h2 | h2
        · exact Or.inl h2
        · exact Or.inr ⟨p, List.mem_cons_self p t, h2⟩
      · obtain ⟨q, hq, hsh⟩ := h1
        exact Or.inr ⟨q, List.mem_cons_of_mem p hq, hsh⟩

/-- Edges accumulated by a node-list-preserving fold come from the
start graph or from one of the steps. -/
theorem foldl_edges {β : Type} {f : BGraph → β → BGraph}
    {N : List (SName × Attrs)} (P : β → SName × SName → Prop)
    (hnodes : ∀ (g : BGraph) (x : β), (f g x).nodesL = g.nodesL)
    (hf : ∀ (g : BGraph) (x : β) (e : SName × SName), g.nodesL = N →
      e ∈ (f g x).edges → e ∈ g.edges ∨ P x e) :
    ∀ (l : List β) (g : BGraph), g.nodesL = N →
      ∀ e ∈ (l.foldl f g).edges, e ∈ g.edges ∨ ∃ x ∈ l, P x e := by
  intro l
  induction l with
  | nil => intro g _ e he; exact Or.inl he
  | cons x t ih =>
      intro g hN e he
      rw [List.foldl_cons] at he
      rcases ih (f g x) ((hnodes g x).trans hN) e he with h1 | h1
      · rcases hf g x e hN h1 with h2 | h2
        · exact Or.inl h2
        · exact Or.inr ⟨x, List.mem_cons_self x t, h2⟩
      · obtain ⟨y, hy, hP⟩ := h1
        exact Or.inr ⟨y, List.mem_cons_of_mem x hy, hP⟩

/-- Every edge the inner loop of `_connect_sections` adds goes from
`name` to a section of the other way that matches the wiring node at
its start, or — only when the other way is bidirectional — at its
end. -/
theorem connectToSections_edges (ways : List (Int × Way))
    (name : SName) (node : Int) (ow : Int)
    {N : List (SName × Attrs)} :
    ∀ (g : BGraph), g.nodesL = N →
      ∀ e ∈ (connectToSections ways g name node ow).edges,
        e ∈ g.edges ∨
        ∃ osec : Nat, e = (name, (ow, osec)) ∧
          (dictGet ((alGet N (ow, osec)).getD []) "start_node" =
              some (.node node) ∨
            ((lookupWay ways ow).is_oneway = false ∧
              dictGet ((alGet N (ow, osec)).getD []) "end_node" =
                some (.node node))) := by
  intro g hN e he
  unfold connectToSections at he
  have h := foldl_edges
    (fun osec e => e = (name, (ow, osec)) ∧
      (dictGet ((alGet N (ow, osec)).getD []) "start_node" =
          some (.node node) ∨
        ((lookupWay ways ow).is_oneway = false ∧
          dictGet ((alGet N (ow, osec)).getD []) "end_node" =
            some (.node node))))
    (fun g x => by
      dsimp only
      split <;> split <;>
        simp [addEdgeIfNew_nodesL])
    (fun g x e hgN hee => by
      dsimp only at hee
      split at hee
      · rename_i hend
        rcases addEdgeIfNew_edges hee with h1 | h1
        · split at h1
          · rename_i hstart
            rcases addEdgeIfNew_edges h1 with h2 | h2
            · exact Or.inl h2
            · refine Or.inr ⟨h2, Or.inl ?_⟩
              rw [← hgN]
              exact hstart
          · exact Or.inl h1
        · refine Or.inr ⟨h1, Or.inr ?_⟩
          rw [Bool.and_eq_true, Bool.not_eq_true'] at hend
          refine ⟨hend.1, ?_⟩
          rw [← hgN]
          exact of_decide_eq_true hend.2
      · split at hee
        · rename_i hstart
          rcases addEdgeIfNew_edges hee with h2 | h2
          · exact Or.inl h2
          · refine Or.inr ⟨h2, Or.inl ?_⟩
            rw [← hgN]
            exact hstart
        · exact Or.inl hee)
    (List.range (lookupWay ways ow).sections) g hN e he
  rcases h with h1 | ⟨x, _, hP⟩
  · exact Or.inl h1
  · exact Or.inr ⟨x, hP⟩

/-- Every edge `_connect_sections` adds leaves `name` and enters a
section of a *different* way, matched at its start node or — only
bidirectionally — at its end node. -/
theorem connect_sections_edges (nodes : Int → Node)
    (ways : List (Int × Way)) (cw : Int) (name : SName) (node : Int)
    {N : List (SName × Attrs)} :
    ∀ (g : BGraph), g.nodesL = N →
      ∀ e ∈ (connect_sections nodes ways g cw name node).edges,
        e ∈ g.edges ∨
        ∃ ow : Int, cw ≠ ow ∧ ∃ osec : Nat, e = (name, (ow, osec)) ∧
          (dictGet ((alGet N (ow, osec)).getD []) "start_node" =
              some (.node node) ∨
            ((lookupWay ways ow).is_oneway = false ∧
              dictGet ((alGet N (ow, osec)).getD []) "end_node" =
                some (.node node))) := by
  intro g hN e he
  unfold connect_sections at he
  have h := foldl_edges
    (fun ow e => cw ≠ ow ∧ ∃ osec : Nat, e = (name, (ow, osec)) ∧
      (dictGet ((alGet N (ow, osec)).getD []) "start_node" =
          some (.node node) ∨
        ((lookupWay ways ow).is_oneway = false ∧
          dictGet ((alGet N (ow, osec)).getD []) "end_node" =
            some (.node node))))
    (fun g x => by
      split
      · rfl
      · exact connectToSections_nodesL ways g name node x)
    (fun g x e hgN hee => by
      split at hee
      · exact Or.inl hee
      · rename_i hne
        rcases connectToSections_edges ways name node x g hgN e hee
          with h1 | h1
        · exact Or.inl h1
        · exact Or.inr ⟨hne, h1⟩)
    ((nodes node).ways) g hN e he
  rcases h with h1 | ⟨x, _, hP⟩
  · exact Or.inl h1
  · exact Or.inr ⟨x, hP⟩

/-- Every edge pass 2 adds while wiring section `name = (cw, sec)`
starts at `name`, crosses into another way, connects there at the start
node (or the end node, only if that way is bidirectional), and the
wiring node is an endpoint recorded on `name` itself (the start side
being consulted only when `name`'s own way is bidirectional). -/
theorem wireSection_edges (nodes : Int → Node) (ways : List (Int × Way))
    (cw : Int) (sec : Nat) {N : List (SName × Attrs)} :
    ∀ (g : BGraph), g.nodesL = N →
      ∀ e ∈ (wireSection nodes ways g cw sec).edges,
        e ∈ g.edges ∨
        (e.1 = ((cw, sec) : SName) ∧ ∃ ow : Int, cw ≠ ow ∧
          ∃ osec : Nat, e.2 = ((ow, osec) : SName) ∧ ∃ v : Int,
          (dictGet ((alGet N ((cw, sec) : SName)).getD [])
              "start_node" = some (.node v) ∨
            dictGet ((alGet N ((cw, sec) : SName)).getD [])
              "end_node" = some (.node v)) ∧
          (dictGet ((alGet N ((ow, osec) : SName)).getD [])
              "start_node" = some (.node v) ∨
            ((lookupWay ways ow).is_oneway = false ∧
              dictGet ((alGet N ((ow, osec) : SName)).getD [])
                "end_node" = some (.node v)))) := by
  intro g hN e he
  unfold wireSection at he
  have hg1N : (if !(lookupWay ways cw).is_oneway then
      match dictGet ((alGet g.nodesL ((cw, sec) : SName)).getD [])
        "start_node" with
      | some (.node v) => connect_sections nodes ways g cw (cw, sec) v
      | _ => g
    else g).nodesL = N := by
    split
    · split
      · rw [connect_sections_nodesL]; exact hN
      · exact hN
    · exact hN
  have hstep : ∀ (gp : BGraph) (ov : Option AttrVal), gp.nodesL = N →
      ∀ e ∈ (match ov with
        | some (.node v) =>
            connect_sections nodes ways gp cw ((cw, sec) : SName) v
        | _ => gp).edges,
      e ∈ gp.edges ∨ ∃ v : Int, ov = some (.node v) ∧
        ∃ ow : Int, cw ≠ ow ∧ ∃ osec : Nat,
          e = (((cw, sec) : SName), ((ow, osec) : SName)) ∧
          (dictGet ((alGet N ((ow, osec) : SName)).getD [])
              "start_node" = some (.node v) ∨
            ((lookupWay ways ow).is_oneway = false ∧
              dictGet ((alGet N ((ow, osec) : SName)).getD [])
                "end_node" = some (.node v))) := by
    intro gp ov hgpN e he
    cases ov with
    | none => exact Or.inl he
    | some av =>
        cases av with
        | node v =>
            rcases connect_sections_edges nodes ways cw (cw, sec) v gp
              hgpN e he with h1 | h1
            · exact Or.inl h1
            · obtain ⟨ow, how, osec, heq, hside⟩ := h1
              exact Or.inr ⟨v, rfl, ow, how, osec, heq, hside⟩
        | num q => exact Or.inl he
        | point p => exact Or.inl he
        | tags t => exact Or.inl he
        | wayid i => exact Or.inl he
        | path p => exact Or.inl he
  have hmain := hstep (if !(lookupWay ways cw).is_oneway then
      match dictGet ((alGet g.nodesL ((cw, sec) : SName)).getD [])
        "start_node" with
      | some (.node v) => connect_sections nodes ways g cw (cw, sec) v
      | _ => g
    else g)
    (dictGet ((alGet g.nodesL ((cw, sec) : SName)).getD []) "end_node")
    hg1N e he
  rcases hmain with h1 | ⟨v, hv, ow, how, osec, heq, hside⟩
  · by_cases hbi : (!(lookupWay ways cw).is_oneway) = true
    · rw [if_pos hbi] at h1
      rcases hstep g
          (dictGet ((alGet g.nodesL ((cw, sec) : SName)).getD [])
            "start_node") hN e h1
        with h2 | ⟨v, hv, ow, how, osec, heq, hside⟩
      · exact Or.inl h2
      · refine Or.inr ⟨by rw [heq], ow, how, osec, by rw [heq],
          v, Or.inl ?_, hside⟩
        rw [← hN]
        exact hv
    · rw [if_neg hbi] at h1
      exact Or.inl h1
  · refine Or.inr ⟨by rw [heq], ow, how, osec, by rw [heq],
      v, Or.inr ?_, hside⟩
    rw [← hN]
    exact hv

/-- Every edge of the built graph is a pass-1 intra-way chain/closing
edge or a pass-2 inter-way connection satisfying the wiring guards. -/
theorem buildPass2_edges (nodes : Int → Node) (ways : List (Int × Way))
    {N : List (SName × Attrs)} :
    ∀ (g : BGraph), g.nodesL = N →
      ∀ e ∈ (buildPass2 nodes ways g).edges,
        e ∈ g.edges ∨
        (e.1.1 ≠ e.2.1 ∧ ∃ v : Int,
          (dictGet ((alGet N e.1).getD []) "start_node" =
              some (.node v) ∨
            dictGet ((alGet N e.1).getD []) "end_node" =
              some (.node v)) ∧
          (dictGet ((alGet N e.2).getD []) "start_node" =
              some (.node v) ∨
            ((lookupWay ways e.2.1).is_oneway = false ∧
              dictGet ((alGet N e.2).getD []) "end_node" =
                some (.node v)))) := by
  intro g hN e he
  unfold buildPass2 at he
  have h := foldl_edges
    (fun iw e => e.1.1 ≠ e.2.1 ∧ ∃ v : Int,
      (dictGet ((alGet N e.1).getD []) "start_node" =
          some (.node v) ∨
        dictGet ((alGet N e.1).getD []) "end_node" =
          some (.node v)) ∧
      (dictGet ((alGet N e.2).getD []) "start_node" =
          some (.node v) ∨
        ((lookupWay ways e.2.1).is_oneway = false ∧
          dictGet ((alGet N e.2).getD []) "end_node" =
            some (.node v))))
    (fun g iw => by
      apply foldl_nodesL
      intro g sec
      exact wireSection_nodesL nodes ways g iw.1 sec)
    (fun g iw e hgN hee => by
      have h2 := foldl_edges
        (fun sec e => e.1.1 = iw.1 ∧ e.1.1 ≠ e.2.1 ∧ ∃ v : Int,
          (dictGet ((alGet N e.1).getD []) "start_node" =
              some (.node v) ∨
            dictGet ((alGet N e.1).getD []) "end_node" =
              some (.node v)) ∧
          (dictGet ((alGet N e.2).getD []) "start_node" =
              some (.node v) ∨
            ((lookupWay ways e.2.1).is_oneway = false ∧
              dictGet ((alGet N e.2).getD []) "end_node" =
                some (.node v))))
        (fun g sec => wireSection_nodesL nodes ways g iw.1 sec)
        (fun g sec e hgN2 hee2 => by
          rcases wireSection_edges nodes ways iw.1 sec g hgN2 e hee2
            with h3 | h3
          · exact Or.inl h3
          · obtain ⟨h1e, ow, how, osec, h2e, v, hsrc, htgt⟩ := h3
            refine Or.inr ⟨by rw [h1e], ?_, v, ?_, ?_⟩
            · rw [h1e, h2e]
              exact how
            · rw [h1e]; exact hsrc
            · rw [h2e]; exact htgt)
        (List.range iw.2.sections) g hgN e hee
      rcases h2 with h3 | ⟨sec, _, hP⟩
      · exact Or.inl h3
      · exact Or.inr ⟨hP.2.1, hP.2.2⟩)
    ways g hN e he
  rcases h with h1 | ⟨iw, _, hP⟩
  · exact Or.inl h1
  · exact Or.inr hP

/-- **C5 (amended)**: in the built graph, (1) every edge between two
sections `(i, k) → (i, kp)` of a one-way way is the forward chain edge
`kp = k + 1` or — the exception the claim misses — the closing edge of
a closed way, from the last section back to section 0; (2) every
inter-way edge into a section of a one-way way attaches at that
section's `start_node` (never its `end_node`), the wiring node being an
endpoint recorded on the source section. -/
theorem c5_oneway_section_edges (nodes : Int → Node)
    (d : Point → Point → ℚ) (ways : List (Int × Way))
    (hid : ∀ p ∈ ways, p.2.id = p.1)
    (hsec0 : ∀ p ∈ ways, p.2.sections = 0)
    (hnodup : (ways.map Prod.fst).Nodup) :
    (∀ (i : Int) (w : Way) (k kp : Nat), (i, w) ∈ ways →
      w.is_oneway = true →
      (((i, k), (i, kp)) : SName × SName) ∈ (build nodes d ways).edges →
      kp = k + 1 ∨
        (closedWay w = true ∧
          k = (sectionPairs (isJunction nodes) w.nodes).length - 1 ∧
          kp = 0)) ∧
    (∀ e ∈ (build nodes d ways).edges, e.1.1 ≠ e.2.1 →
      ∀ wv : Way, alGet (waysAfterPass1 nodes d ways) e.2.1 = some wv →
      wv.is_oneway = true →
      ∃ v : Int,
        dictGet ((alGet (build nodes d ways).nodesL e.2).getD [])
          "start_node" = some (.node v) ∧
        (dictGet ((alGet (build nodes d ways).nodesL e.1).getD [])
            "start_node" = some (.node v) ∨
          dictGet ((alGet (build nodes d ways).nodesL e.1).getD [])
            "end_node" = some (.node v))) := by
  constructor
  · intro i w k kp hmem hone he
    have he' : (((i, k), (i, kp)) : SName × SName) ∈
        (buildPass2 nodes (buildPass1 nodes d ways).2
          (buildPass1 nodes d ways).1).edges := he
    rcases buildPass2_edges nodes (buildPass1 nodes d ways).2
        (buildPass1 nodes d ways).1 rfl _ he' with h1 | h1
    · have h1' : (((i, k), (i, kp)) : SName × SName) ∈
          (ways.foldl (pass1Step nodes d)
            ({ nodesL := [], edges := [] }, [])).1.edges := h1
      rcases pass1_edges nodes d ways _ [] _ h1' with h0 | h0
      · exact absurd h0 (List.not_mem_nil _)
      · obtain ⟨p, hp, h1a, h2a, hsh⟩ := h0
        have hpkey : p.1 = ((i, w) : Int × Way).1 := by
          have hpid : p.2.id = p.1 := hid p hp
          rw [← hpid]
          exact h1a.symm
        have hpw : p = (i, w) := mem_key_unique hnodup hp hmem hpkey
        rcases hsh with hf | hb | hw
        · exact Or.inl hf
        · exfalso
          have hbw : w.is_oneway = false := by
            have h := hb.2
            rw [hpw] at h
            exact h
          rw [hbw] at hone
          exact absurd hone (by decide)
        · refine Or.inr ⟨?_, ?_, ?_⟩
          · have h := hw.1
            rw [hpw] at h
            exact h
          · have h := hw.2
            rw [hpw] at h
            simp only [Prod.mk.injEq] at h
            have hs0 : w.sections = 0 := hsec0 (i, w) hmem
            have hk : k = w.sections +
                (sectionPairs (isJunction nodes) w.nodes).length - 1 :=
              h.1.2
            omega
          · have h := hw.2
            rw [hpw] at h
            simp only [Prod.mk.injEq] at h
            exact h.2.2
    · exact absurd rfl h1.1
  · intro e he hne wv halw hone
    have he' : e ∈ (buildPass2 nodes (buildPass1 nodes d ways).2
        (buildPass1 nodes d ways).1).edges := he
    rcases buildPass2_edges nodes (buildPass1 nodes d ways).2
        (buildPass1 nodes d ways).1 rfl e he' with h1 | h1
    · have h1' : e ∈ (ways.foldl (pass1Step nodes d)
          ({ nodesL := [], edges := [] }, [])).1.edges := h1
      rcases pass1_edges nodes d ways _ [] e h1' with h0 | h0
      · exact absurd h0 (List.not_mem_nil _)
      · obtain ⟨p, _, h1a, h2a, _⟩ := h0
        exact absurd (h1a.trans h2a.symm) hne
    · obtain ⟨_, v, hsrc, htgt⟩ := h1
      have hNeq : (build nodes d ways).nodesL =
          (buildPass1 nodes d ways).1.nodesL :=
        buildPass2_nodesL nodes (buildPass1 nodes d ways).2
          (buildPass1 nodes d ways).1
      rcases htgt with hstart | ⟨hbi, _⟩
      · refine ⟨v, ?_, ?_⟩
        · rw [hNeq]
          exact hstart
        · rw [hNeq]
          exact hsrc
      · exfalso
        have hlw : lookupWay (buildPass1 nodes d ways).2 e.2.1 = wv := by
          unfold lookupWay
          rw [show alGet (buildPass1 nodes d ways).2 e.2.1 = some wv
            from halw]
          rfl
        rw [hlw] at hbi
        rw [hbi] at hone
        exact absurd hone (by decide)

unseal Rat.add in
/-- **C5, counterexample**: the one-way (junction=roundabout) closed way
30 with sections `30_0`, `30_1` receives the closing edge
`30_1 → 30_0`, an edge from a section of a one-way way backward to its
predecessor section within the same way, which the claim rules out. -/
theorem c5_roundabout_backward_edge_counterexample :
    exWayRound.is_oneway = true ∧
    (((30, 1), (30, 0)) : SName × SName) ∈
      (build exNodesRound dist0
        [((30 : Int), exWayRound), (31, exWaySpur)]).edges ∧
    (lookupWay (waysAfterPass1 exNodesRound dist0
      [((30 : Int), exWayRound), (31, exWaySpur)]) 30).sections = 2 :=
  ⟨by decide, by decide, by decide⟩

/-- The amended edge-shape theorem applied to the concrete roundabout
input: ways 30 (closed one-way) and 31 (bidirectional spur). -/
theorem c5_oneway_section_edges_witness :
    (∀ p ∈ [((30 : Int), exWayRound), (31, exWaySpur)], p.2.id = p.1) ∧
    (∀ p ∈ [((30 : Int), exWayRound), (31, exWaySpur)],
      p.2.sections = 0) ∧
    (([((30 : Int), exWayRound), (31, exWaySpur)].map Prod.fst).Nodup) ∧
    ((∀ (i : Int) (w : Way) (k kp : Nat),
      (i, w) ∈ [((30 : Int), exWayRound), (31, exWaySpur)] →
      w.is_oneway = true →
      (((i, k), (i, kp)) : SName × SName) ∈
        (build exNodesRound dist0
          [((30 : Int), exWayRound), (31, exWaySpur)]).edges →
      kp = k + 1 ∨
        (closedWay w = true ∧
          k = (sectionPairs (isJunction exNodesRound) w.nodes).length - 1 ∧
          kp = 0)) ∧
    (∀ e ∈ (build exNodesRound dist0
        [((30 : Int), exWayRound), (31, exWaySpur)]).edges,
      e.1.1 ≠ e.2.1 →
      ∀ wv : Way, alGet (waysAfterPass1 exNodesRound dist0
        [((30 : Int), exWayRound), (31, exWaySpur)]) e.2.1 = some wv →
      wv.is_oneway = true →
      ∃ v : Int,
        dictGet ((alGet (build exNodesRound dist0
            [((30 : Int), exWayRound), (31, exWaySpur)]).nodesL e.2).getD
          []) "start_node" = some (.node v) ∧
        (dictGet ((alGet (build exNodesRound dist0
              [((30 : Int), exWayRound), (31, exWaySpur)]).nodesL
            e.1).getD []) "start_node" = some (.node v) ∨
          dictGet ((alGet (build exNodesRound dist0
              [((30 : Int), exWayRound), (31, exWaySpur)]).nodesL
            e.1).getD []) "end_node" = some (.node v)))) :=
  ⟨by decide, by decide, by decide,
    c5_oneway_section_edges exNodesRound dist0
      [((30 : Int), exWayRound), (31, exWaySpur)] (by decide) (by decide)
      (by decide)⟩

/-- Overwriting position `n` is, as a multiset, removing the old entry
and prepending the new one. -/
theorem set_perm {α : Type} :
    ∀ (l : List α) (n : Nat) (x : α), n < l.length →
      (l.set n x).Perm (x :: l.eraseIdx n) := by
  intro l
  induction l with
  | nil => intro n x hn; cases hn
  | cons y t ih =>
      intro n x hn
      cases n with
      | zero => simp
      | succ n =>
          rw [List.set_cons_succ, List.eraseIdx_cons_succ]
          refine ((ih n x ?_).cons y).trans (List.Perm.swap x y _)
          simpa using hn

/-- A list is, as a multiset, its `n`-th entry plus the rest. -/
theorem getElem_eraseIdx_perm {α : Type} :
    ∀ (l : List α) (n : Nat) (x : α), l[n]? = some x →
      l.Perm (x :: l.eraseIdx n) := by
  intro l
  induction l with
  | nil => intro n x hn; simp at hn
  | cons y t ih =>
      intro n x hn
      cases n with
      | zero =>
          simp only [List.getElem?_cons_zero, Option.some.injEq] at hn
          rw [hn]
          simp
      | succ n =>
          rw [List.getElem?_cons_succ] at hn
          rw [List.eraseIdx_cons_succ]
          exact ((ih n x hn).cons y).trans (List.Perm.swap x y _)

/-- Writing `b` at `i` and then `a` at a different position `j` that
already held `b` is, as a multiset, just writing `a` at `i`. -/
theorem set_set_perm {α : Type} :
    ∀ (l : List α) (i j : Nat) (a b : α), i ≠ j → i < l.length →
      l[j]? = some b → ((l.set i b).set j a).Perm (l.set i a) := by
  intro l
  induction l with
  | nil => intro i j a b _ hi; cases hi
  | cons y t ih =>
      intro i j a b hij hi hj
      cases i with
      | zero =>
          cases j with
          | zero => exact absurd rfl hij
          | succ j =>
              rw [List.getElem?_cons_succ] at hj
              rw [List.set_cons_zero, List.set_cons_succ,
                List.set_cons_zero]
              have hjt : j < t.length := by
                obtain ⟨hb, _⟩ := List.getElem?_eq_some.mp hj
                exact hb
              exact (((set_perm t j a hjt).cons b).trans
                (List.Perm.swap a b _)).trans
                (((getElem_eraseIdx_perm t j b hj).symm).cons a)
      | succ i =>
          cases j with
          | zero =>
              simp only [List.getElem?_cons_zero, Option.some.injEq] at hj
              rw [List.set_cons_succ, List.set_cons_zero,
                List.set_cons_succ, hj]
              have hit : i < t.length := by simpa using hi
              exact (((set_perm t i b hit).cons a).trans
                (List.Perm.swap b a _)).trans
                (((set_perm t i a hit).symm).cons b)
          | succ j =>
              rw [List.getElem?_cons_succ] at hj
              rw [List.set_cons_succ, List.set_cons_succ,
                List.set_cons_succ]
              exact (ih i j a b (fun h => hij (congrArg Nat.succ h))
                (by simpa using hi) hj).cons y

/-- The `_siftdown` bubble loop permutes: its result is the heap with
`newitem` written into the hole. -/
theorem siftdownGo_perm {α : Type} (lt : α → α → Bool) :
    ∀ (fuel : Nat) (heap : List α) (startpos pos : Nat) (newitem : α),
      pos < heap.length →
      (siftdownGo lt fuel heap startpos pos newitem).Perm
        (heap.set pos newitem) := by
  intro fuel
  induction fuel with
  | zero => intro heap startpos pos newitem _; exact List.Perm.refl _
  | succ fuel ih =>
      intro heap startpos pos newitem hpos
      unfold siftdownGo
      split
      · rename_i hsp
        dsimp only
        cases hpp : heap[(pos - 1) / 2]? with
        | none => exact List.Perm.refl _
        | some parent =>
            dsimp only
            split
            · obtain ⟨hplt, _⟩ := List.getElem?_eq_some.mp hpp
              have hne : (pos - 1) / 2 ≠ pos := by omega
              have hppset : (heap.set pos parent)[(pos - 1) / 2]? =
                  some parent := by
                rw [List.getElem?_set_ne hne.symm]
                exact hpp
              exact (ih (heap.set pos parent) startpos ((pos - 1) / 2)
                  newitem (by simpa using hplt)).trans
                (set_set_perm heap pos ((pos - 1) / 2) newitem parent
                  (fun h => hne h.symm) hpos hpp)
            · exact List.Perm.refl _
      · exact List.Perm.refl _

/-- `_siftdown` permutes the heap. -/
theorem siftdown_perm {α : Type} (lt : α → α → Bool) (heap : List α)
    (startpos pos : Nat) :
    (siftdown lt heap startpos pos).Perm heap := by
  unfold siftdown
  cases hp : heap[pos]? with
  | none => exact List.Perm.refl _
  | some newitem =>
      obtain ⟨hplt, _⟩ := List.getElem?_eq_some.mp hp
      exact ((siftdownGo_perm lt heap.length heap startpos pos newitem
          hplt).trans (set_perm heap pos newitem hplt)).trans
        (getElem_eraseIdx_perm heap pos newitem hp).symm

/-- The `_siftup` hole-moving loop: the hole index stays in range, the
length is unchanged, and writing any item into the final hole is, as a
multiset, writing it into the original hole. -/
theorem siftupGo_spec {α : Type} (lt : α → α → Bool) :
    ∀ (fuel : Nat) (heap : List α) (pos : Nat), pos < heap.length →
      (siftupGo lt fuel heap pos).2 < (siftupGo lt fuel heap pos).1.length ∧
      (siftupGo lt fuel heap pos).1.length = heap.length ∧
      ∀ x, ((siftupGo lt fuel heap pos).1.set
          (siftupGo lt fuel heap pos).2 x).Perm (heap.set pos x) := by
  intro fuel
  induction fuel with
  | zero =>
      intro heap pos hpos
      exact ⟨hpos, rfl, fun x => List.Perm.refl _⟩
  | succ fuel ih =>
      intro heap pos hpos
      unfold siftupGo
      split
      · rename_i hchild
        dsimp only
        cases hcp : heap[pickChild lt heap (2 * pos + 1)]? with
        | none => exact ⟨hpos, rfl, fun x => List.Perm.refl _⟩
        | some child =>
            dsimp only
            obtain ⟨hclt, _⟩ := List.getElem?_eq_some.mp hcp
            have hne : pos ≠ pickChild lt heap (2 * pos + 1) := by
              have : 2 * pos + 1 ≤ pickChild lt heap (2 * pos + 1) := by
                unfold pickChild
                split
                · split <;> omega
                · omega
              omega
            obtain ⟨h1, h2, h3⟩ := ih (heap.set pos child)
              (pickChild lt heap (2 * pos + 1)) (by simpa using hclt)
            refine ⟨h1, by rw [h2]; simp, fun x => ?_⟩
            exact (h3 x).trans
              (set_set_perm heap pos (pickChild lt heap (2 * pos + 1))
                x child hne hpos hcp)
      · exact ⟨hpos, rfl, fun x => List.Perm.refl _⟩

/-- `_siftup` permutes the heap. -/
theorem siftup_perm {α : Type} (lt : α → α → Bool) (heap : List α)
    (pos : Nat) : (siftup lt heap pos).Perm heap := by
  unfold siftup
  cases hp : heap[pos]? with
  | none => exact List.Perm.refl _
  | some newitem =>
      dsimp only
      obtain ⟨hplt, _⟩ := List.getElem?_eq_some.mp hp
      obtain ⟨h1, h2, h3⟩ := siftupGo_spec lt (heap.length + 1) heap pos hplt
      exact ((siftdown_perm lt _ pos _).trans
        ((h3 newitem).trans (set_perm heap pos newitem hplt))).trans
        (getElem_eraseIdx_perm heap pos newitem hp).symm

/-- `heappush` is, as a multiset, prepending the item. -/
theorem heappush_perm {α : Type} (lt : α → α → Bool) (heap : List α)
    (item : α) : (heappush lt heap item).Perm (item :: heap) := by
  unfold heappush
  exact (siftdown_perm lt (heap ++ [item]) 0 heap.length).trans
    (List.perm_append_singleton item heap)

/-- `heappop` is, as a multiset, removing the returned item. -/
theorem heappop_perm {α : Type} (lt : α → α → Bool) {heap rest : List α}
    {e : α} (h : heappop lt heap = some (e, rest)) :
    heap.Perm (e :: rest) := by
  unfold heappop at h
  cases hl : heap.getLast? with
  | none => rw [hl] at h; simp at h
  | some lastelt =>
      rw [hl] at h
      dsimp only at h
      have hne : heap ≠ [] := by
        intro hc; rw [hc] at hl; simp at hl
      rw [List.getLast?_eq_getLast heap hne] at hl
      simp only [Option.some.injEq] at hl
      cases hh : heap.dropLast.head? with
      | none =>
          rw [hh] at h
          simp only [Option.some.injEq, Prod.mk.injEq] at h
          obtain ⟨he, hrest⟩ := h
          subst he hrest
          have hdl : heap.dropLast = [] := by
            cases hd : heap.dropLast with
            | nil => rfl
            | cons a t => rw [hd] at hh; simp at hh
          have h2 := List.dropLast_append_getLast hne
          rw [hdl, hl, List.nil_append] at h2
          rw [← h2]
      | some returnitem =>
          rw [hh] at h
          simp only [Option.some.injEq, Prod.mk.injEq] at h
          obtain ⟨he, hrest⟩ := h
          subst he hrest
          have hdl : heap.dropLast = returnitem :: heap.dropLast.tail :=
            (List.cons_head?_tail hh).symm
          have hlen : 0 < heap.dropLast.length := by
            rw [hdl]; simp
          have h2 := List.dropLast_append_getLast hne
          rw [hl] at h2
          have hperm1 : heap.Perm
              (lastelt :: returnitem :: heap.dropLast.tail) := by
            have hp := List.perm_append_singleton lastelt heap.dropLast
            rw [h2] at hp
            rw [hdl] at hp
            exact hp
          have hperm2 : (siftup lt (heap.dropLast.set 0 lastelt) 0).Perm
              (lastelt :: heap.dropLast.tail) := by
            refine (siftup_perm lt _ 0).trans ?_
            refine (set_perm heap.dropLast 0 lastelt hlen).trans ?_
            rw [hdl]
            exact List.Perm.refl _
          exact hperm1.trans ((List.Perm.swap returnitem lastelt _).trans
            (hperm2.symm.cons returnitem))

/-- `heapify` permutes the heap. -/
theorem heapify_perm {α : Type} (lt : α → α → Bool) (heap : List α) :
    (heapify lt heap).Perm heap := by
  unfold heapify
  generalize (List.range (heap.length / 2)).reverse = idxs
  induction idxs generalizing heap with
  | nil => exact List.Perm.refl _
  | cons i t ih =>
      rw [List.foldl_cons]
      exact (ih (siftup lt heap i)).trans (siftup_perm lt heap i)

/-- A key that occurs in a dictionary has a value. -/
theorem mem_map_alGet {κ α : Type} [DecidableEq κ] :
    ∀ {d : List (κ × α)} {k : κ}, k ∈ d.map Prod.fst →
      ∃ a, alGet d k = some a := by
  intro d
  induction d with
  | nil => intro k h; simp at h
  | cons p t ih =>
      intro k h
      by_cases hp : p.1 = k
      · exact ⟨p.2, by unfold alGet; rw [if_pos hp]⟩
      · rw [List.map_cons] at h
        rcases List.mem_cons.mp h with h1 | h1
        · exact absurd h1.symm hp
        · obtain ⟨a, ha⟩ := ih h1
          exact ⟨a, by unfold alGet; rw [if_neg hp]; exact ha⟩

/-- A vertex of the graph has an attribute dict. -/
theorem mem_vertices_alGet {V : Type} [DecidableEq V] {g : PGraph V}
    {v : V} (h : v ∈ g.vertices) : ∃ a, alGet g.nodesL v = some a :=
  mem_map_alGet h

/-- `alGet` only returns stored entries. -/
theorem alGet_mem {κ α : Type} [DecidableEq κ] :
    ∀ {d : List (κ × α)} {k : κ} {a : α},
      alGet d k = some a → (k, a) ∈ d := by
  intro d
  induction d with
  | nil => intro k a h; simp [alGet] at h
  | cons p t ih =>
      intro k a h
      unfold alGet at h
      split at h
      · rename_i hp
        simp only [Option.some.injEq] at h
        rw [← hp, ← h]
        exact List.mem_cons_self p t
      · exact List.mem_cons_of_mem p (ih h)

/-- On a well-formed graph every stored attribute dict is
section-shaped. -/
theorem wf_attrs {V : Type} [DecidableEq V] {g : PGraph V}
    (hwf : WFGraph g = true) {v : V} {a : Attrs}
    (h : alGet g.nodesL v = some a) : WFVertAttrs a = true := by
  unfold WFGraph at hwf
  rw [Bool.and_eq_true] at hwf
  have := List.all_eq_true.mp hwf.1 (v, a) (alGet_mem h)
  exact this

/-- The Section attributes include a `start_node`. -/
theorem wf_start_node {a : Attrs} (h : WFVertAttrs a = true) :
    ∃ x, dictGet a "start_node" = some x := by
  unfold WFVertAttrs at h
  simp only [Bool.and_eq_true] at h
  have h1 := h.1.1.1.1
  cases hd : dictGet a "start_node" with
  | none => rw [hd] at h1; simp at h1
  | some x => exact ⟨x, rfl⟩

/-- The Section attributes include an `end_node`. -/
theorem wf_end_node {a : Attrs} (h : WFVertAttrs a = true) :
    ∃ x, dictGet a "end_node" = some x := by
  unfold WFVertAttrs at h
  simp only [Bool.and_eq_true] at h
  have h1 := h.1.1.1.2
  cases hd : dictGet a "end_node" with
  | none => rw [hd] at h1; simp at h1
  | some x => exact ⟨x, rfl⟩

/-- The Section attributes include a numeric `length`. -/
theorem wf_length {a : Attrs} (h : WFVertAttrs a = true) :
    ∃ q, dictGet a "length" = some (.num q) := by
  unfold WFVertAttrs at h
  simp only [Bool.and_eq_true] at h
  have h1 := h.1.1.2
  cases hd : dictGet a "length" with
  | none => rw [hd] at h1; simp at h1
  | some x =>
      cases x <;> rw [hd] at h1 <;> simp_all

/-- On a well-formed graph, successors are vertices. -/
theorem succList_mem_vertices {V : Type} [DecidableEq V] {g : PGraph V}
    (hwf : WFGraph g = true) {v nb : V} (h : nb ∈ succList g v) :
    nb ∈ g.vertices := by
  unfold succList at h
  rw [List.mem_map] at h
  obtain ⟨e, he, hnb⟩ := h
  rw [List.mem_filter] at he
  unfold WFGraph at hwf
  rw [Bool.and_eq_true] at hwf
  have h2 := List.all_eq_true.mp hwf.2 e he.1
  rw [Bool.and_eq_true] at h2
  obtain ⟨a, ha⟩ := Option.isSome_iff_exists.mp h2.2
  rw [← hnb]
  have : e.2 ∈ g.nodesL.map Prod.fst := alGet_isSome_mem (by rw [ha]; rfl)
  exact this

/-- `node_attributes` succeeds on a vertex. -/
theorem node_attributes_ok {V : Type} [DecidableEq V] {g : PGraph V}
    {v : V} (h : v ∈ g.vertices) :
    ∃ a, node_attributes g v = .ok a ∧ alGet g.nodesL v = some a := by
  obtain ⟨a, ha⟩ := mem_vertices_alGet h
  exact ⟨a, by unfold node_attributes; rw [ha], ha⟩

/-- `find_side_entered` succeeds on well-formed vertices. -/
theorem find_side_ok {V : Type} [DecidableEq V] {g : PGraph V}
    (hwf : WFGraph g = true) {prev current : V}
    (hp : prev ∈ g.vertices) (hc : current ∈ g.vertices) :
    ∃ side, find_side_entered g prev current = .ok side := by
  obtain ⟨ac, hac, hac2⟩ := node_attributes_ok hc
  obtain ⟨ap, hap, hap2⟩ := node_attributes_ok hp
  obtain ⟨cs, hcs⟩ := wf_start_node (wf_attrs hwf hac2)
  obtain ⟨ps, hps⟩ := wf_start_node (wf_attrs hwf hap2)
  obtain ⟨pe, hpe⟩ := wf_end_node (wf_attrs hwf hap2)
  refine ⟨if cs = ps ∨ cs = pe then .enteredStart else .enteredEnd, ?_⟩
  simp only [find_side_entered, hac, hap, reqAttr, hcs, hps, hpe,
    except_bind_ok]

/-- `keepNeighbour` succeeds on well-formed vertices. -/
theorem keepNeighbour_ok {V : Type} [DecidableEq V] {g : PGraph V}
    (hwf : WFGraph g = true) (side : Side) {parent nb : V}
    (hp : parent ∈ g.vertices) (hn : nb ∈ g.vertices) :
    ∃ b, keepNeighbour g side parent nb = .ok b := by
  obtain ⟨ap, hap, hap2⟩ := node_attributes_ok hp
  obtain ⟨an, han, han2⟩ := node_attributes_ok hn
  obtain ⟨ps, hps⟩ := wf_start_node (wf_attrs hwf hap2)
  obtain ⟨pe, hpe⟩ := wf_end_node (wf_attrs hwf hap2)
  obtain ⟨ns, hns⟩ := wf_start_node (wf_attrs hwf han2)
  obtain ⟨ne, hne⟩ := wf_end_node (wf_attrs hwf han2)
  cases side with
  | enteredStart =>
      refine ⟨decide (pe = ns ∨ pe = ne), ?_⟩
      simp only [keepNeighbour, hap, han, reqAttr, hps, hpe, hns, hne,
        except_bind_ok]
  | enteredEnd =>
      refine ⟨decide (ps = ns ∨ ps = ne), ?_⟩
      simp only [keepNeighbour, hap, han, reqAttr, hps, hpe, hns, hne,
        except_bind_ok]

/-- `filter_neighbours` succeeds on well-formed vertices and keeps
exactly the neighbours whose keep test returns true. -/
theorem filter_neighbours_ok {V : Type} [DecidableEq V] {g : PGraph V}
    (hwf : WFGraph g = true) (side : Side) {parent : V}
    (hp : parent ∈ g.vertices) :
    ∀ (l : List V), (∀ nb ∈ l, nb ∈ g.vertices) →
      ∃ l1, filter_neighbours g side parent l = .ok l1 ∧
        ∀ nb ∈ l1, nb ∈ l ∧ keepNeighbour g side parent nb = .ok true := by
  intro l
  induction l with
  | nil => intro _; exact ⟨[], rfl, fun nb hnb => absurd hnb
      (List.not_mem_nil nb)⟩
  | cons nb t ih =>
      intro hmem
      obtain ⟨b, hb⟩ := keepNeighbour_ok hwf side hp
        (hmem nb (List.mem_cons_self nb t))
      obtain ⟨l1, hl1, hl1mem⟩ := ih
        (fun x hx => hmem x (List.mem_cons_of_mem nb hx))
      refine ⟨if b then nb :: l1 else l1, ?_, ?_⟩
      · simp only [filter_neighbours, hb, hl1, except_bind_ok]
      · intro x hx
        by_cases hbt : b = true
        · rw [if_pos hbt] at hx
          rcases List.mem_cons.mp hx with h1 | h1
          · subst h1
            refine ⟨List.mem_cons_self x t, ?_⟩
            rw [hb, hbt]
          · obtain ⟨hm, hk⟩ := hl1mem x h1
            exact ⟨List.mem_cons_of_mem nb hm, hk⟩
        · rw [Bool.not_eq_true] at hbt
          rw [hbt] at hx
          simp only [Bool.false_eq_true, if_false] at hx
          obtain ⟨hm, hk⟩ := hl1mem x hx
          exact ⟨List.mem_cons_of_mem nb hm, hk⟩

/-- `length` is readable as a number on a well-formed vertex. -/
theorem getNum_length_ok {V : Type} [DecidableEq V] {g : PGraph V}
    (hwf : WFGraph g = true) {v : V} (hv : v ∈ g.vertices) :
    ∃ q, getNum g v "length" = .ok q := by
  obtain ⟨a, ha, ha2⟩ := node_attributes_ok hv
  obtain ⟨q, hq⟩ := wf_length (wf_attrs hwf ha2)
  exact ⟨q, by simp only [getNum, getAttr, ha, hq, except_bind_ok]⟩

/-- `predicted_cost` succeeds between any two vertices of a well-formed
graph. -/
theorem predicted_cost_wf_ok {V : Type} [DecidableEq V] {g : PGraph V}
    (hwf : WFGraph g = true) (d : Point → Point → ℚ) {v w : V}
    (hv : v ∈ g.vertices) (hw : w ∈ g.vertices) :
    ∃ q, predicted_cost g d v w = .ok q := by
  obtain ⟨av, hav⟩ := mem_vertices_alGet hv
  obtain ⟨aw, haw⟩ := mem_vertices_alGet hw
  exact predicted_cost_ok g d v w hav (wf_attrs hwf hav) haw
    (wf_attrs hwf haw)

/-- Writing `ancestors[nb] := current`, `g[nb] := q` and replacing the
fringe with any list whose entries are old entries or the new
`(f, nb)` preserves the loop invariant. -/
theorem inv9_fringe_update {V : Type} [DecidableEq V] {graph : PGraph V}
    {start : V} {st : AState V} (hinv : Inv9 graph start st)
    {fr' : List (ℚ × V)} (f : ℚ) {q : ℚ} {nb current : V}
    (hmem : ∀ e ∈ fr', e = (f, nb) ∨ e ∈ st.fringe)
    (hnbv : nb ∈ graph.vertices) (hcv : current ∈ graph.vertices)
    (hreach : PReach graph start current nb) :
    Inv9 graph start
      ⟨fr', st.closed, alSet st.ancestors nb current,
        alSet st.g nb q⟩ where
  fringe_vert e he := (hmem e he).elim
    (fun h => by rw [h]; exact hnbv) (hinv.fringe_vert e)
  fringe_g e he := by
    by_cases henb : e.2 = nb
    · rw [henb, alGet_alSet_self]; rfl
    · rw [alGet_alSet_ne _ _ _ _ henb]
      rcases hmem e he with h | h
      · exact absurd (congrArg Prod.snd h) henb
      · exact hinv.fringe_g e h
  fringe_reach e he := by
    rcases hmem e he with h | h
    · rw [h]
      exact Or.inr ⟨current, hreach⟩
    · exact hinv.fringe_reach e h
  fringe_anc e he hens := by
    by_cases henb : e.2 = nb
    · rw [henb, alGet_alSet_self]; rfl
    · rw [alGet_alSet_ne _ _ _ _ henb]
      rcases hmem e he with h | h
      · exact absurd (congrArg Prod.snd h) henb
      · exact hinv.fringe_anc e h hens
  anc_vert m u hmu := by
    by_cases hmn : m = nb
    · rw [hmn, alGet_alSet_self] at hmu
      simp only [Option.some.injEq] at hmu
      rw [← hmu]
      exact hcv
    · rw [alGet_alSet_ne _ _ _ _ hmn] at hmu
      exact hinv.anc_vert m u hmu
  anc_reach m u hmu := by
    by_cases hmn : m = nb
    · rw [hmn, alGet_alSet_self] at hmu
      simp only [Option.some.injEq] at hmu
      rw [hmn, ← hmu]
      exact hreach
    · rw [alGet_alSet_ne _ _ _ _ hmn] at hmu
      exact hinv.anc_reach m u hmu
  closed_vert := hinv.closed_vert

/-- Removing a member and putting it back in front is a permutation
(over any lawful equality test). -/
theorem perm_cons_erase_beq {α : Type} [BEq α] [LawfulBEq α] {a : α} :
    ∀ {l : List α}, a ∈ l → l.Perm (a :: l.erase a) := by
  intro l
  induction l with
  | nil => intro h; cases h
  | cons b t ih =>
      intro h
      rw [List.erase_cons]
      cases hba : b == a with
      | true =>
          rw [if_pos rfl, eq_of_beq hba]
      | false =>
          rw [if_neg Bool.false_ne_true]
          have hat : a ∈ t := by
            rcases List.mem_cons.mp h with h1 | h1
            · rw [h1] at hba
              simp at hba
            · exact h1
          exact ((ih hat).cons b).trans (List.Perm.swap a b _)

/-- One `relax` call on a well-formed graph: it never raises, keeps the
closed set, grows the `g` dict, preserves the invariant and leaves the
count of stale fringe entries unchanged. -/
theorem relax_step {V : Type} [DecidableEq V] [TieLt V] {graph : PGraph V}
    {d : Point → Point → ℚ} {start goal current nb : V} {st : AState V}
    (hwf : WFGraph graph = true) (hgoalv : goal ∈ graph.vertices)
    (hinv : Inv9 graph start st) (hcv : current ∈ graph.vertices)
    (hnbv : nb ∈ graph.vertices)
    (hreach : PReach graph start current nb)
    (hg : (alGet st.g current).isSome) :
    ∃ st', relax graph d goal current st nb = .ok st' ∧
      Inv9 graph start st' ∧ st'.closed = st.closed ∧
      (∀ k, (alGet st.g k).isSome → (alGet st'.g k).isSome) ∧
      st'.fringe.countP (fun e => decide (e.2 ∈ st.closed)) =
        st.fringe.countP (fun e => decide (e.2 ∈ st.closed)) := by
  by_cases hm : nb ∈ st.closed
  · refine ⟨st, ?_, hinv, rfl, fun k h => h, rfl⟩
    unfold relax
    rw [if_pos hm]
  · cases hgc : alGet st.g current with
    | none => rw [hgc] at hg; simp at hg
    | some gc =>
        obtain ⟨len, hlen⟩ := getNum_length_ok hwf hcv
        obtain ⟨hq, hh⟩ := predicted_cost_wf_ok hwf d hnbv hgoalv
        cases hf : st.fringe.find? (fun e => decide (e.2 = nb) &&
            decide (gc + len < e.1)) with
        | none =>
            refine ⟨⟨heappush pyLt st.fringe (gc + len + hq, nb),
              st.closed, alSet st.ancestors nb current,
              alSet st.g nb (gc + len)⟩, ?_, ?_, rfl, ?_, ?_⟩
            · unfold relax
              rw [if_neg hm]
              simp only [hgc, hlen, hh, except_bind_ok, hf]
            · refine inv9_fringe_update hinv (gc + len + hq) ?_ hnbv hcv
                hreach
              intro e he
              have hp := (heappush_perm pyLt st.fringe
                (gc + len + hq, nb)).mem_iff.mp he
              exact List.mem_cons.mp hp
            · intro k hk
              by_cases hknb : k = nb
              · rw [hknb, alGet_alSet_self]; rfl
              · rw [alGet_alSet_ne _ _ _ _ hknb]; exact hk
            · rw [List.Perm.countP_eq _ (heappush_perm pyLt st.fringe _)]
              exact List.countP_cons_of_neg _ _ (by simp [hm])
        | some entry =>
            have hentm : entry ∈ st.fringe := List.mem_of_find?_eq_some hf
            have hent := List.find?_some hf
            rw [Bool.and_eq_true] at hent
            have hent2 : entry.2 = nb := of_decide_eq_true hent.1
            have hstale : ¬ ((fun e : ℚ × V =>
                decide (e.2 ∈ st.closed)) entry = true) := by
              dsimp only
              rw [hent2]
              simp [hm]
            refine ⟨⟨heappush pyLt (heapify pyLt (st.fringe.erase entry))
              (gc + len + hq, nb), st.closed,
              alSet st.ancestors nb current,
              alSet st.g nb (gc + len)⟩, ?_, ?_, rfl, ?_, ?_⟩
            · unfold relax
              rw [if_neg hm]
              simp only [hgc, hlen, hh, except_bind_ok, hf]
            · refine inv9_fringe_update hinv (gc + len + hq) ?_ hnbv hcv
                hreach
              intro e he
              have hp := (heappush_perm pyLt _ _).mem_iff.mp he
              rcases List.mem_cons.mp hp with h1 | h1
              · exact Or.inl h1
              · exact Or.inr (List.mem_of_mem_erase
                  ((heapify_perm pyLt _).mem_iff.mp h1))
            · intro k hk
              by_cases hknb : k = nb
              · rw [hknb, alGet_alSet_self]; rfl
              · rw [alGet_alSet_ne _ _ _ _ hknb]; exact hk
            · rw [List.Perm.countP_eq _ (heappush_perm pyLt _ _),
                List.countP_cons_of_neg _ _ (by simp [hm]),
                List.Perm.countP_eq _ (heapify_perm pyLt _),
                List.Perm.countP_eq _ (perm_cons_erase_beq hentm)]
              exact (List.countP_cons_of_neg
                (fun e : ℚ × V => decide (e.2 ∈ st.closed))
                (st.fringe.erase entry) hstale).symm

/-- Folding `relax` over surviving neighbours on a well-formed graph:
never raises, keeps the closed set and the invariant, and leaves the
stale-entry count unchanged. -/
theorem foldlM_relax_step {V : Type} [DecidableEq V] [TieLt V]
    {graph : PGraph V} (d : Point → Point → ℚ) {start goal current : V}
    (hwf : WFGraph graph = true) (hgoalv : goal ∈ graph.vertices)
    (hcv : current ∈ graph.vertices) :
    ∀ (l : List V) (st0 : AState V), Inv9 graph start st0 →
      (∀ nb ∈ l, nb ∈ graph.vertices ∧ PReach graph start current nb) →
      (alGet st0.g current).isSome →
      ∃ stN, l.foldlM (relax graph d goal current) st0 = .ok stN ∧
        Inv9 graph start stN ∧ stN.closed = st0.closed ∧
        stN.fringe.countP (fun e => decide (e.2 ∈ st0.closed)) =
          st0.fringe.countP (fun e => decide (e.2 ∈ st0.closed)) := by
  intro l
  induction l with
  | nil =>
      intro st0 hinv _ _
      exact ⟨st0, rfl, hinv, rfl, rfl⟩
  | cons nb t ih =>
      intro st0 hinv hprops hg
      obtain ⟨hv, hr⟩ := hprops nb (List.mem_cons_self nb t)
      obtain ⟨st1, h1, hinv1, hcl1, hgmono, hcnt1⟩ :=
        relax_step hwf hgoalv hinv hcv hv hr hg
      obtain ⟨stN, hN, hinvN, hclN, hcntN⟩ := ih st1 hinv1
        (fun x hx => hprops x (List.mem_cons_of_mem nb hx))
        (hgmono current hg)
      refine ⟨stN, ?_, hinvN, hclN.trans hcl1, ?_⟩
      · rw [List.foldlM_cons, h1, except_bind_ok]
        exact hN
      · have hcntNb : List.countP (fun e => decide (e.2 ∈ st0.closed))
            stN.fringe =
            List.countP (fun e => decide (e.2 ∈ st0.closed))
              st1.fringe := by
          rw [← hcl1]
          exact hcntN
        exact hcntNb.trans hcnt1

/-- Membership in `insertSet`. -/
theorem mem_insertSet {V : Type} [DecidableEq V] {s : List V} {x y : V}
    (h : y ∈ insertSet s x) : y ∈ s ∨ y = x := by
  unfold insertSet at h
  split at h
  · exact Or.inl h
  · rcases List.mem_append.mp h with h1 | h1
    · exact Or.inl h1
    · exact Or.inr (List.mem_singleton.mp h1)

/-- `insertSet` keeps old members. -/
theorem subset_insertSet {V : Type} [DecidableEq V] {s : List V} {x y : V}
    (h : y ∈ s) : y ∈ insertSet s x := by
  unfold insertSet
  split
  · exact h
  · exact List.mem_append.mpr (Or.inl h)

/-- One loop iteration on a well-formed graph with an unreachable goal:
either the fringe is empty and the loop falls through with `None`, or
the iteration succeeds, keeps the invariant and strictly decreases the
lexicographic measure (open vertices, stale fringe entries). -/
theorem astarStep_progress {V : Type} [DecidableEq V] [TieLt V]
    {graph : PGraph V} (d : Point → Point → ℚ) {start goal : V}
    (hwf : WFGraph graph = true) (hgoalv : goal ∈ graph.vertices)
    (hunreach : ¬ PlannerReachable graph start goal)
    {st : AState V} (hinv : Inv9 graph start st) :
    astarStep graph d start goal st = .ok (.done none) ∨
    ∃ st1, astarStep graph d start goal st = .ok (.next st1) ∧
      Inv9 graph start st1 ∧
      (muOpen graph st1 < muOpen graph st ∨
        (muOpen graph st1 = muOpen graph st ∧ muStale st1 < muStale st)) := by
  cases hpop : heappop pyLt st.fringe with
  | none =>
      left
      simp only [astarStep, hpop]
  | some pr =>
      obtain ⟨⟨c, current⟩, fringe1⟩ := pr
      right
      have hperm := heappop_perm pyLt hpop
      have hcur_mem : ((c, current) : ℚ × V) ∈ st.fringe :=
        hperm.mem_iff.mpr (List.mem_cons_self _ _)
      have hcv := hinv.fringe_vert _ hcur_mem
      have hreachcur := hinv.fringe_reach _ hcur_mem
      have hng : current ≠ goal := fun h => hunreach (h ▸ hreachcur)
      obtain ⟨acur, hacur⟩ := mem_vertices_alGet hcv
      have hnbs : neighbors graph current =
          .ok (succList graph current) := by
        unfold neighbors
        rw [hacur]
        rfl
      have hinv0 : Inv9 graph start
          ⟨fringe1, insertSet st.closed current, st.ancestors, st.g⟩ := by
        refine ⟨?_, ?_, ?_, ?_, hinv.anc_vert, hinv.anc_reach, ?_⟩
        · intro e he
          exact hinv.fringe_vert e
            (hperm.mem_iff.mpr (List.mem_cons_of_mem _ he))
        · intro e he
          exact hinv.fringe_g e
            (hperm.mem_iff.mpr (List.mem_cons_of_mem _ he))
        · intro e he
          exact hinv.fringe_reach e
            (hperm.mem_iff.mpr (List.mem_cons_of_mem _ he))
        · intro e he
          exact hinv.fringe_anc e
            (hperm.mem_iff.mpr (List.mem_cons_of_mem _ he))
        · intro y hy
          rcases mem_insertSet hy with h1 | h1
          · exact hinv.closed_vert y h1
          · rw [h1]; exact hcv
      have hg0 : (alGet st.g current).isSome :=
        hinv.fringe_g _ hcur_mem
      have hmeasure : ∀ stN : AState V,
          stN.closed = insertSet st.closed current →
          stN.fringe.countP
              (fun e => decide (e.2 ∈ insertSet st.closed current)) =
            fringe1.countP
              (fun e => decide (e.2 ∈ insertSet st.closed current)) →
          muOpen graph stN < muOpen graph st ∨
            (muOpen graph stN = muOpen graph st ∧
              muStale stN < muStale st) := by
        intro stN hclN hcntN
        by_cases hcc : current ∈ st.closed
        · right
          have hins : insertSet st.closed current = st.closed := by
            unfold insertSet
            rw [if_pos hcc]
          rw [hins] at hclN hcntN
          constructor
          · unfold muOpen
            rw [hclN]
          · unfold muStale
            rw [hclN, hcntN]
            rw [List.Perm.countP_eq _ hperm,
              List.countP_cons_of_pos _ _ (by simp [hcc])]
            omega
        · left
          unfold muOpen
          rw [List.countP_eq_length_filter, List.countP_eq_length_filter]
            at *
          rw [← List.countP_eq_length_filter,
            ← List.countP_eq_length_filter]
          refine countP_strict ?_ graph.vertices current hcv ?_ ?_
          · intro x hx
            rw [decide_eq_true_eq] at hx ⊢
            intro hc
            exact hx (by rw [hclN]; exact subset_insertSet hc)
          · simp [hcc]
          · rw [decide_eq_false_iff_not]
            rw [hclN]
            intro hc
            exact hc (mem_insertSet_self st.closed current)
      by_cases hcs : current = start
      · obtain ⟨stN, hfold, hinvN, hclN, hcntN⟩ :=
          foldlM_relax_step d hwf hgoalv hcv (succList graph current)
            ⟨fringe1, insertSet st.closed current, st.ancestors, st.g⟩
            hinv0
            (fun nb hnb => ⟨succList_mem_vertices hwf hnb, by
              rw [hcs] at hnb ⊢
              exact PReach.base nb hnb⟩)
            hg0
        refine ⟨stN, ?_, hinvN, hmeasure stN hclN hcntN⟩
        unfold astarStep
        simp only [hpop]
        rw [if_neg hng]
        simp only [hnbs, except_bind_ok, if_pos hcs, pure, Except.pure,
          hfold]
      · have hanc := hinv.fringe_anc _ hcur_mem hcs
        cases hprev : alGet st.ancestors current with
        | none => rw [hprev] at hanc; simp at hanc
        | some prev =>
            have hprevv := hinv.anc_vert current prev hprev
            have hpreach := hinv.anc_reach current prev hprev
            obtain ⟨side, hside⟩ := find_side_ok hwf hprevv hcv
            obtain ⟨nbs1, hfil, hkeep⟩ :=
              filter_neighbours_ok hwf side hcv (succList graph current)
                (fun nb h => succList_mem_vertices hwf h)
            obtain ⟨stN, hfold, hinvN, hclN, hcntN⟩ :=
              foldlM_relax_step d hwf hgoalv hcv nbs1
                ⟨fringe1, insertSet st.closed current, st.ancestors,
                  st.g⟩ hinv0
                (fun nb hnb => by
                  obtain ⟨hm, hk⟩ := hkeep nb hnb
                  exact ⟨succList_mem_vertices hwf hm,
                    PReach.step prev current nb side hpreach hm hside hk⟩)
                hg0
            refine ⟨stN, ?_, hinvN, hmeasure stN hclN hcntN⟩
            unfold astarStep
            simp only [hpop]
            rw [if_neg hng]
            simp only [hnbs, except_bind_ok, if_neg hcs, hprev, hside,
              hfil, hfold]

/-- From any invariant state of the loop, a run on a well-formed graph
with an unreachable goal reaches the fallen-through result `None` in
finitely many iterations. -/
theorem astar_run_no_path {V : Type} [DecidableEq V] [TieLt V]
    {graph : PGraph V} (d : Point → Point → ℚ) {start goal : V}
    (hwf : WFGraph graph = true) (hgoalv : goal ∈ graph.vertices)
    (hunreach : ¬ PlannerReachable graph start goal) :
    ∀ (st : AState V), Inv9 graph start st →
      ∃ k, (astarStepRun graph d start goal)^[k] (.inl st) =
        .inr (.ok none) := by
  have main : ∀ (a b : Nat) (st : AState V), muOpen graph st = a →
      muStale st = b → Inv9 graph start st →
      ∃ k, (astarStepRun graph d start goal)^[k] (.inl st) =
        .inr (.ok none) := by
    intro a
    induction a using Nat.strong_induction_on with
    | _ a iha =>
        intro b
        induction b using Nat.strong_induction_on with
        | _ b ihb =>
            intro st ha hb hinv
            rcases astarStep_progress d hwf hgoalv hunreach hinv with
              hdone | ⟨st1, hstep, hinv1, hdec⟩
            · refine ⟨1, ?_⟩
              rw [Function.iterate_one]
              simp only [astarStepRun, hdone]
            · have hrun : astarStepRun graph d start goal (.inl st) =
                  .inl st1 := by
                simp only [astarStepRun, hstep]
              rcases hdec with hlt | ⟨heq, hlt⟩
              · obtain ⟨k, hk⟩ := iha (muOpen graph st1) (ha ▸ hlt)
                  (muStale st1) st1 rfl rfl hinv1
                refine ⟨k + 1, ?_⟩
                rw [Function.iterate_succ_apply, hrun]
                exact hk
              · obtain ⟨k, hk⟩ := ihb (muStale st1) (hb ▸ hlt) st1
                  (heq.trans ha) rfl hinv1
                refine ⟨k + 1, ?_⟩
                rw [Function.iterate_succ_apply, hrun]
                exact hk
  intro st hinv
  exact main (muOpen graph st) (muStale st) st rfl rfl hinv

/-- Initialisation succeeds on a well-formed graph and produces the
one-entry fringe. -/
theorem astarInit_ok {V : Type} [DecidableEq V] [TieLt V]
    {graph : PGraph V} (d : Point → Point → ℚ) {start goal : V}
    (hwf : WFGraph graph = true) (hstartv : start ∈ graph.vertices)
    (hgoalv : goal ∈ graph.vertices) :
    ∃ q, astarInit graph d start goal =
      .ok ⟨[(q, start)], [], [], [(start, 0)]⟩ := by
  obtain ⟨q, hq⟩ := predicted_cost_wf_ok hwf d hstartv hgoalv
  refine ⟨q, ?_⟩
  simp only [astarInit, hq, except_bind_ok]
  rfl

/-- The invariant holds at the initial state. -/
theorem inv9_init {V : Type} [DecidableEq V] {graph : PGraph V}
    {start : V} (q : ℚ) (hstartv : start ∈ graph.vertices) :
    Inv9 graph start ⟨[(q, start)], [], [], [(start, 0)]⟩ where
  fringe_vert e he := by
    rw [List.mem_singleton.mp he]
    exact hstartv
  fringe_g e he := by
    rw [List.mem_singleton.mp he]
    simp [alGet]
  fringe_reach e he := by
    rw [List.mem_singleton.mp he]
    exact Or.inl rfl
  fringe_anc e he hne := by
    rw [List.mem_singleton.mp he] at hne
    exact absurd rfl hne
  anc_vert m u h := by simp [alGet] at h
  anc_reach m u h := by simp [alGet] at h
  closed_vert y hy := absurd hy (List.not_mem_nil y)

/-- **C9**: on a well-formed graph whose `goal` the planner's expansion
rules cannot reach from `start`, `Astar` terminates — the fringe
eventually empties and the run falls through the loop — returning
Python's implicit `None` (the distinguished no-path value) and raising
no error. -/
theorem c9_unreachable_terminates_no_path {V : Type} [DecidableEq V]
    [TieLt V] (graph : PGraph V) (d : Point → Point → ℚ)
    (start goal : V) (hwf : WFGraph graph = true)
    (hstartv : start ∈ graph.vertices) (hgoalv : goal ∈ graph.vertices)
    (hunreach : ¬ PlannerReachable graph start goal) :
    ∃ n, AstarOut graph d start goal n = some (.ok none) := by
  obtain ⟨q, hinit⟩ := astarInit_ok d hwf hstartv hgoalv
  obtain ⟨k, hk⟩ := astar_run_no_path d hwf hgoalv hunreach
    ⟨[(q, start)], [], [], [(start, 0)]⟩ (inv9_init q hstartv)
  refine ⟨k, ?_⟩
  simp only [AstarOut, runAstar, hinit, hk]

/-- The termination theorem applied to the concrete two-vertex graph
with no edges: G is unreachable from A and the planner reports no
path. -/
theorem c9_unreachable_terminates_no_path_witness :
    WFGraph exNoPathGraph = true ∧
    "A" ∈ exNoPathGraph.vertices ∧
    "G" ∈ exNoPathGraph.vertices ∧
    ¬ PlannerReachable exNoPathGraph "A" "G" ∧
    ∃ n, AstarOut exNoPathGraph dist0 "A" "G" n = some (.ok none) := by
  have hsucc : ∀ v : String, succList exNoPathGraph v = [] := fun v => rfl
  have hnr : ¬ PlannerReachable exNoPathGraph "A" "G" := by
    intro h
    rcases h with h | ⟨u, h⟩
    · exact absurd h (by decide)
    · cases h with
      | base m hm =>
          rw [hsucc] at hm
          cases hm
      | step w u m side hp hm hs hk =>
          rw [hsucc] at hm
          cases hm
  exact ⟨by decide, by decide, by decide, hnr,
    c9_unreachable_terminates_no_path exNoPathGraph dist0 "A" "G"
      (by decide) (by decide) (by decide) hnr⟩
